import Mathlib

/-!
# nbody: quadtree insertion, pairwise force, wall reflection and the
# distributed partition / force reduction

A shallow embedding of `src/common.cpp` and of the partitioning and reduction
code of `main` in `src/mpi.cpp`.

Conventions of the embedding:

* the floating-point code is embedded twice. In `apply_force`, `move`,
  `bounce`, `QuadTreeNode.insert` a C `double` is an exact rational number
  (`ℚ`): these are the functions in exact arithmetic. In `apply_force_fl`,
  `move_fl`, `bounce_fl`, `QuadTreeNode.insert_fl` a `double` is a binary64
  number and every operation is rounded (`fl`): these are the functions as they
  run. A statement says which of the two it is about;
* a C `int` is a mathematical integer (`ℤ`); signed overflow is undefined
  behaviour in C++, and `partition_fits_int` gives the range of inputs on which
  no intermediate value of the partition code leaves the 32-bit range;
* a C array is a `List`; a pointer that may be `NULL` is an `Option`, or the
  `NULL` constructor of the tree type;
* a loop or a recursion that the source does not bound takes a `fuel : ℕ`
  argument and returns `none` when the fuel runs out.
-/

namespace NBody

/-! ## Data model -/

/-- The particle record: six doubles, as in `MPI_Type_contiguous( 6, MPI_DOUBLE, … )`. -/
structure particle_t where
  x : ℚ
  y : ℚ
  vx : ℚ
  vy : ℚ
  ax : ℚ
  ay : ℚ
  deriving DecidableEq, Repr

instance : Inhabited particle_t := ⟨⟨0, 0, 0, 0, 0, 0⟩⟩

/-! ## `main` of mpi.cpp: the data partitioning (lines 56-67) -/

/-- The largest value of a 32-bit C `int`. -/
def INT_MAX : ℤ := 2147483647

/-- Modelled from the spec: `min` is declared in `common.h`, which is not among
the sources; it is the smaller of its two `int` arguments (the partition is
"ceiling division; the last slice may be smaller"). -/
def imin (a b : ℤ) : ℤ := if a < b then a else b

/-- `int particle_per_proc = (n + n_proc - 1) / n_proc;` with C's truncating
integer division. -/
def particle_per_proc (n n_proc : ℤ) : ℤ := Int.tdiv (n + n_proc - 1) n_proc

/-- The loop `for( int i = 0; i < n_proc+1; i++ )
  partition_offsets[i] = min( i * particle_per_proc, n );`. -/
def partition_offsets (n n_proc : ℤ) : List ℤ :=
  (List.range (n_proc + 1).toNat).map
    (fun (i : ℕ) => imin ((i : ℤ) * particle_per_proc n n_proc) n)

/-- The loop `for( int i = 0; i < n_proc; i++ )
  partition_sizes[i] = partition_offsets[i+1] - partition_offsets[i];`. -/
def partition_sizes (n n_proc : ℤ) : List ℤ :=
  (List.range n_proc.toNat).map
    (fun (i : ℕ) => (partition_offsets n n_proc).getD (i + 1) 0
                - (partition_offsets n n_proc).getD i 0)

/-! ## `main` of mpi.cpp: gather and reduction of the forces (lines 140-150) -/

/-- `MPI_Gather( particles, n, PARTICLE, a_p, n, PARTICLE, 0, MPI_COMM_WORLD )`
as seen by the root rank: the receive buffer `a_p` is, rank after rank, the
first `n` records of every rank's send buffer. -/
def MPI_Gather (n : ℕ) (sendbufs : List (List particle_t)) : List particle_t :=
  sendbufs.flatMap (fun b => b.take n)

/-- The two statements `particles[i].ax += a_p[i + n*j].ax;
particles[i].ay += a_p[i + n*j].ay;` on the record `q = particles[i]` with
`a = a_p[i + n*j]`. -/
def accumulate (q a : particle_t) : particle_t :=
  { q with ax := q.ax + a.ax, ay := q.ay + a.ay }

/-- The inner loop `for( int j = 0; j < n_proc; j++)` of the reduction, for a
fixed `i`. -/
def reduce_inner (n n_proc : ℕ) (a_p : List particle_t) (i : ℕ)
    (particles : List particle_t) : List particle_t :=
  (List.range n_proc).foldl
    (fun ps j => ps.set i (accumulate (ps.getD i default) (a_p.getD (i + n * j) default)))
    particles

/-- The loop nest run by rank 0 after the gather (mpi.cpp, lines 143-150). -/
def reduce_forces (n n_proc : ℕ) (a_p particles : List particle_t) : List particle_t :=
  (List.range n).foldl (fun ps i => reduce_inner n n_proc a_p i ps) particles

/-- Lines 140-150 on rank 0: `sendbufs[j]` is the `particles` array of rank `j`
after its force sweep, so that `sendbufs[j][i]` carries the partial acceleration
of rank `j` for particle `i`; `sendbufs[0]` is rank 0's own `particles` array,
the one the loop accumulates into; the number of ranks is the number of send
buffers. -/
def gather_and_sum (n : ℕ) (sendbufs : List (List particle_t)) : List particle_t :=
  reduce_forces n sendbufs.length (MPI_Gather n sendbufs) (sendbufs.getD 0 [])

/-! ## common.cpp: tuned constants -/

/-- `#define density 0.0005`. -/
def density : ℚ := 5 / 10000

/-- `#define mass 0.01`. -/
def mass : ℚ := 1 / 100

/-- `#define cutoff 0.01`. -/
def cutoff : ℚ := 1 / 100

/-- `#define min_r (cutoff/100)`. -/
def min_r : ℚ := cutoff / 100

/-- `#define dt 0.0005`. -/
def dt : ℚ := 5 / 10000

/-! ## common.cpp: `apply_force` -/

/-- The diagnostics that `apply_force` updates through its pointer arguments. -/
structure Diagnostics where
  dmin : ℚ
  davg : ℚ
  navg : ℤ
  deriving DecidableEq, Repr

/-- `double r2 = dx * dx + dy * dy;` for the pair. -/
def separation2 (particle neighbor : particle_t) : ℚ :=
  (neighbor.x - particle.x) * (neighbor.x - particle.x)
    + (neighbor.y - particle.y) * (neighbor.y - particle.y)

/-- `r2 = fmax( r2, min_r*min_r );`: the first divisor of `coef`. -/
def clamped_r2 (r2 : ℚ) : ℚ := max r2 (min_r * min_r)

/-- `double r = sqrt( r2 );` after the clamp: the second divisor of `coef`. -/
def clamped_r (sqrt : ℚ → ℚ) (r2 : ℚ) : ℚ := sqrt (clamped_r2 r2)

/-- `double coef = ( 1 - cutoff / r ) / r2 / mass;`. -/
def coef (sqrt : ℚ → ℚ) (r2 : ℚ) : ℚ :=
  (1 - cutoff / clamped_r sqrt r2) / clamped_r2 r2 / mass

/-- `apply_force(particle, neighbor, dmin, davg, navg)`: the updated particle and
diagnostics, in exact arithmetic (`apply_force_fl` is the function on doubles).
`sqrt` is the square root of the C library, a parameter here: the rationals
have no square-root function, and each theorem says what it assumes of it. -/
def apply_force (sqrt : ℚ → ℚ) (particle neighbor : particle_t) (d : Diagnostics) :
    particle_t × Diagnostics :=
  let dx := neighbor.x - particle.x
  let dy := neighbor.y - particle.y
  let r2 := dx * dx + dy * dy
  if r2 > cutoff * cutoff then
    (particle, d)
  else
    let d1 : Diagnostics :=
      if r2 ≠ 0 then
        { dmin := if r2 / (cutoff * cutoff) < d.dmin * d.dmin then sqrt r2 / cutoff else d.dmin
          davg := d.davg + sqrt r2 / cutoff
          navg := d.navg + 1 }
      else d
    ({ particle with
        ax := particle.ax + coef sqrt r2 * dx
        ay := particle.ay + coef sqrt r2 * dy }, d1)

/-- What a theorem assumes of `sqrt` at one argument: the value is the exact
non-negative root. -/
def IsSqrtAt (sqrt : ℚ → ℚ) (a : ℚ) : Prop := 0 ≤ sqrt a ∧ sqrt a * sqrt a = a

/-! ## common.cpp: `move` -/

/-- The body of a wall loop on the position: `p.x = p.x < 0 ? -p.x : 2*size-p.x;`. -/
def reflect (size x : ℚ) : ℚ := if x < 0 then -x else 2 * size - x

/-- One of the loops `while( p.x < 0 || p.x > size ) { … }` of `move`, on a
position and its velocity component, in exact arithmetic (`bounce_fl` is the
loop on doubles); one unit of fuel per iteration. -/
def bounce (size : ℚ) : ℕ → ℚ → ℚ → Option (ℚ × ℚ)
  | 0, x, v => if x < 0 ∨ x > size then none else some (x, v)
  | fuel + 1, x, v =>
    if x < 0 ∨ x > size then bounce size fuel (reflect size x) (-v) else some (x, v)

/-- `move( particle_t &p )` in exact arithmetic (`move_fl` is the function on
doubles), with the global `size` as a parameter. -/
def move (size : ℚ) (fuel : ℕ) (p : particle_t) : Option particle_t :=
  let vx := p.vx + p.ax * dt
  let vy := p.vy + p.ay * dt
  let x := p.x + vx * dt
  let y := p.y + vy * dt
  match bounce size fuel x vx with
  | none => none
  | some (x1, vx1) =>
    match bounce size fuel y vy with
    | none => none
    | some (y1, vy1) => some { p with x := x1, y := y1, vx := vx1, vy := vy1 }

/-! ## common.cpp: the quadtree -/

/-- A value of this type is a `QuadTreeNode*`: either the `NULL` pointer or a
pointer to a node with the fields that the constructor sets (the `parent`
back-pointer, which `insert` never reads, is left out) and the particle pointer
`p` that `insert` tests and assigns. -/
inductive QuadTreeNode where
  | NULL : QuadTreeNode
  | node (x y width height : ℚ) (external : Bool) (p : Option particle_t)
      (NW NE SW SE : QuadTreeNode) (wn hn xmid ymid : ℚ) : QuadTreeNode
  deriving DecidableEq, Repr

namespace QuadTreeNode

/-- Modelled from the spec: the field `p` of a node that has just been
constructed. The constructor in `common.cpp` does not assign `p`, and the class
declaration (`common.h`), where a default value would be given, is not among
the sources; the spec has "Construct(region) → empty external node covering
region", so a new node holds no particle (`p == NULL`). -/
def initial_p : Option particle_t := none

/-- `QuadTreeNode::QuadTreeNode(parent, x, y, width, height)`: the fields as the
constructor assigns them, and `p` as `initial_p`. -/
def new (x y width height : ℚ) : QuadTreeNode :=
  node x y width height true initial_p NULL NULL NULL NULL
    (width / 2) (height / 2) (x + width / 2) (y + height / 2)

/-- `QuadTreeNode::insert(particle_t* p)` in exact arithmetic (`insert_fl` is
the function on doubles). Every call costs one unit of `fuel`;
`none` is returned when the fuel is used up, or when the call goes through a
`NULL` child. -/
def insert : ℕ → QuadTreeNode → particle_t → Option QuadTreeNode
  | 0, _, _ => none
  | _ + 1, NULL, _ => none
  | fuel + 1, node x y width height external q NW NE SW SE wn0 hn0 xmid0 ymid0, p =>
    if external then
      match q with
      | none => some (node x y width height external (some p) NW NE SW SE wn0 hn0 xmid0 ymid0)
      | some q =>
        let wn := width / 2
        let hn := height / 2
        let xmid := x + wn
        let ymid := y + hn
        match insert fuel
            (node x y width height false (some q) (new x y wn hn) (new xmid y wn hn)
              (new x ymid wn hn) (new xmid ymid wn hn) wn0 hn0 xmid0 ymid0) q with
        | none => none
        | some this1 => insert fuel this1 p
    else
      let xmid := x + width / 2
      let ymid := y + height / 2
      let pltx := decide (p.x < xmid)
      let plty := decide (p.y < ymid)
      if pltx && plty then
        (insert fuel NW p).map
          (fun c => node x y width height external q c NE SW SE wn0 hn0 xmid0 ymid0)
      else if !pltx && plty then
        (insert fuel NE p).map
          (fun c => node x y width height external q NW c SW SE wn0 hn0 xmid0 ymid0)
      else if pltx && !plty then
        (insert fuel SW p).map
          (fun c => node x y width height external q NW NE c SE wn0 hn0 xmid0 ymid0)
      else if !pltx && !plty then
        (insert fuel SE p).map
          (fun c => node x y width height external q NW NE SW c wn0 hn0 xmid0 ymid0)
      else
        some (node x y width height external q NW NE SW SE wn0 hn0 xmid0 ymid0)

/-- Inserting a sequence of particles one after the other, each call to `insert`
with the given fuel. -/
def insert_all (fuel : ℕ) : QuadTreeNode → List particle_t → Option QuadTreeNode
  | t, [] => some t
  | t, p :: ps =>
    match insert fuel t p with
    | none => none
    | some t1 => insert_all fuel t1 ps

end QuadTreeNode

/-! ## Vocabulary of the statements on the quadtree -/

/-- An axis-aligned rectangle: origin, width, height. -/
structure Region where
  x : ℚ
  y : ℚ
  width : ℚ
  height : ℚ
  deriving DecidableEq, Repr

/-- The four child slots of a node. -/
inductive Quadrant where
  | NW | NE | SW | SE
  deriving DecidableEq, Repr

/-- The quadrant rule in the spec's words: `x<xmid & y<ymid → NW`,
`x≥xmid & y<ymid → NE`, `x<xmid & y≥ymid → SW`, `x≥xmid & y≥ymid → SE`. -/
def quadrantOf (xmid ymid px py : ℚ) : Quadrant :=
  if px < xmid ∧ py < ymid then Quadrant.NW
  else if xmid ≤ px ∧ py < ymid then Quadrant.NE
  else if px < xmid ∧ ymid ≤ py then Quadrant.SW
  else Quadrant.SE

/-- The region of a child in the spec's words: width and height halved, origin
at one of the four combinations of `(x, x+w/2) × (y, y+h/2)`. -/
def Region.quadrant (R : Region) : Quadrant → Region
  | Quadrant.NW => ⟨R.x, R.y, R.width / 2, R.height / 2⟩
  | Quadrant.NE => ⟨R.x + R.width / 2, R.y, R.width / 2, R.height / 2⟩
  | Quadrant.SW => ⟨R.x, R.y + R.height / 2, R.width / 2, R.height / 2⟩
  | Quadrant.SE => ⟨R.x + R.width / 2, R.y + R.height / 2, R.width / 2, R.height / 2⟩

/-- The point `(a, b)` lies in the rectangle, borders included (the spec's
precondition `0 ≤ x, y ≤ domain size` for the root). -/
def Region.contains (R : Region) (a b : ℚ) : Prop :=
  R.x ≤ a ∧ a ≤ R.x + R.width ∧ R.y ≤ b ∧ b ≤ R.y + R.height

/-- The point `(a, b)` lies in the rectangle, the upper borders excluded: the
cells `[x, x+w) × [y, y+h)`, which tile without overlap. -/
def Region.covers (R : Region) (a b : ℚ) : Prop :=
  R.x ≤ a ∧ a < R.x + R.width ∧ R.y ≤ b ∧ b < R.y + R.height

/-- The point lies in the rectangle, and in its half-open cell as well when
`G` holds of the point. -/
def Region.Inside (G : ℚ → ℚ → Prop) (R : Region) (a b : ℚ) : Prop :=
  R.contains a b ∧ (G a b → R.covers a b)

instance (R : Region) (a b : ℚ) : Decidable (R.contains a b) := by
  unfold Region.contains; infer_instance

instance (R : Region) (a b : ℚ) : Decidable (R.covers a b) := by
  unfold Region.covers; infer_instance

namespace QuadTreeNode

/-- The region `(x, y, width, height)` of a node. -/
def region : QuadTreeNode → Region
  | NULL => ⟨0, 0, 0, 0⟩
  | node x y width height _ _ _ _ _ _ _ _ _ _ => ⟨x, y, width, height⟩

/-- The flag `external` of a node (`false` for `NULL`). -/
def isExternal : QuadTreeNode → Bool
  | NULL => false
  | node _ _ _ _ external _ _ _ _ _ _ _ _ _ => external

/-- The field `p` of a node. -/
def particle : QuadTreeNode → Option particle_t
  | NULL => none
  | node _ _ _ _ _ p _ _ _ _ _ _ _ _ => p

/-- The node is internal: not `NULL`, and its flag `external` is off. -/
def isInternal : QuadTreeNode → Bool
  | NULL => false
  | node _ _ _ _ external _ _ _ _ _ _ _ _ _ => !external

/-- The child slot that the quadrant rule names for the point `(a, b)` at this
node, with the midpoints `x + width/2`, `y + height/2` of lines 78-79. -/
def route (t : QuadTreeNode) (a b : ℚ) : Quadrant :=
  quadrantOf ((region t).x + (region t).width / 2) ((region t).y + (region t).height / 2) a b

/-- The child pointer in a given slot. -/
def child : QuadTreeNode → Quadrant → QuadTreeNode
  | NULL, _ => NULL
  | node _ _ _ _ _ _ NW _ _ _ _ _ _ _, Quadrant.NW => NW
  | node _ _ _ _ _ _ _ NE _ _ _ _ _ _, Quadrant.NE => NE
  | node _ _ _ _ _ _ _ _ SW _ _ _ _ _, Quadrant.SW => SW
  | node _ _ _ _ _ _ _ _ _ SE _ _ _ _, Quadrant.SE => SE

/-- The node with one child pointer replaced. -/
def setChild : QuadTreeNode → Quadrant → QuadTreeNode → QuadTreeNode
  | NULL, _, _ => NULL
  | node x y w h e p _ NE SW SE a b c d, Quadrant.NW, t => node x y w h e p t NE SW SE a b c d
  | node x y w h e p NW _ SW SE a b c d, Quadrant.NE, t => node x y w h e p NW t SW SE a b c d
  | node x y w h e p NW NE _ SE a b c d, Quadrant.SW, t => node x y w h e p NW NE t SE a b c d
  | node x y w h e p NW NE SW _ a b c d, Quadrant.SE, t => node x y w h e p NW NE SW t a b c d

/-- The particles held by the external nodes of a tree, children in the order
NW, NE, SW, SE. -/
def leaves : QuadTreeNode → List particle_t
  | NULL => []
  | node _ _ _ _ true p _ _ _ _ _ _ _ _ => p.toList
  | node _ _ _ _ false _ NW NE SW SE _ _ _ _ =>
    leaves NW ++ leaves NE ++ leaves SW ++ leaves SE

/-- Descent by the quadrant rule from a node to the external node in charge of
the point `(a, b)`. -/
def descend : QuadTreeNode → ℚ → ℚ → QuadTreeNode
  | NULL, _, _ => NULL
  | node x y w h true p NW NE SW SE wn hn xm ym, _, _ =>
    node x y w h true p NW NE SW SE wn hn xm ym
  | node x y w h false _ NW NE SW SE _ _ _ _, a, b =>
    match quadrantOf (x + w / 2) (y + h / 2) a b with
    | Quadrant.NW => descend NW a b
    | Quadrant.NE => descend NE a b
    | Quadrant.SW => descend SW a b
    | Quadrant.SE => descend SE a b

/-- Every internal node of the tree has four children, none `NULL`, whose
regions are the four quadrants of its own region, and every external node has
no child. -/
def Subdivided : QuadTreeNode → Prop
  | NULL => False
  | node _ _ _ _ true _ NW NE SW SE _ _ _ _ =>
    NW = NULL ∧ NE = NULL ∧ SW = NULL ∧ SE = NULL
  | node x y w h false _ NW NE SW SE _ _ _ _ =>
    (Subdivided NW ∧ region NW = (Region.mk x y w h).quadrant Quadrant.NW)
    ∧ (Subdivided NE ∧ region NE = (Region.mk x y w h).quadrant Quadrant.NE)
    ∧ (Subdivided SW ∧ region SW = (Region.mk x y w h).quadrant Quadrant.SW)
    ∧ (Subdivided SE ∧ region SE = (Region.mk x y w h).quadrant Quadrant.SE)

/-- The invariant of the trees that `insert` builds: external nodes have no
child, the particle of an external node lies in the node's region (and in its
half-open cell when `G` holds of its position, `G` standing for "in the
half-open cell of the root"), every child of an internal node is a node whose
region is the corresponding quadrant, and the particles below a child are those
that the quadrant rule sends to that child. -/
def WellFormed (G : ℚ → ℚ → Prop) : QuadTreeNode → Prop
  | NULL => False
  | node x y w h true p NW NE SW SE _ _ _ _ =>
    (NW = NULL ∧ NE = NULL ∧ SW = NULL ∧ SE = NULL)
    ∧ ∀ q, p = some q → (Region.mk x y w h).Inside G q.x q.y
  | node x y w h false _ NW NE SW SE _ _ _ _ =>
    (WellFormed G NW ∧ region NW = (Region.mk x y w h).quadrant Quadrant.NW
      ∧ ∀ q ∈ leaves NW, quadrantOf (x + w / 2) (y + h / 2) q.x q.y = Quadrant.NW)
    ∧ (WellFormed G NE ∧ region NE = (Region.mk x y w h).quadrant Quadrant.NE
      ∧ ∀ q ∈ leaves NE, quadrantOf (x + w / 2) (y + h / 2) q.x q.y = Quadrant.NE)
    ∧ (WellFormed G SW ∧ region SW = (Region.mk x y w h).quadrant Quadrant.SW
      ∧ ∀ q ∈ leaves SW, quadrantOf (x + w / 2) (y + h / 2) q.x q.y = Quadrant.SW)
    ∧ (WellFormed G SE ∧ region SE = (Region.mk x y w h).quadrant Quadrant.SE
      ∧ ∀ q ∈ leaves SE, quadrantOf (x + w / 2) (y + h / 2) q.x q.y = Quadrant.SE)

end QuadTreeNode

/-! ## Double precision

The definitions above take a `double` as an exact rational. Those below take
it as a binary64 number: a rational with at most 53 significant bits, every
arithmetic operation being rounded to the nearest such number, ties to even,
each operation on its own (no fused multiply-add, no extended precision).
Overflow to infinity and NaN are left out: the range is unbounded above, and no
value in the theorems below comes near `2^1024`. -/

/-- The exponent of the unit in the last place of the binary64 format at `x`:
53 significant bits, and never below the subnormal quantum `2^-1074`. -/
def ulp_exp (x : ℚ) : ℤ := max (Int.log 2 |x| - 52) (-1074)

/-- Rounding of a rational to the nearest integer, ties to the even one. -/
def round_even (q : ℚ) : ℤ :=
  if q - ⌊q⌋ < 1 / 2 then ⌊q⌋
  else if 1 / 2 < q - ⌊q⌋ then ⌊q⌋ + 1
  else if ⌊q⌋ % 2 = 0 then ⌊q⌋ else ⌊q⌋ + 1

/-- The double nearest to `x`, ties to even: the result of a double operation
whose exact result is `x`. -/
def fl (x : ℚ) : ℚ := (round_even (x / 2 ^ ulp_exp x) : ℚ) * 2 ^ ulp_exp x

/-- The double nearest to the square root of `v` (correctly rounded, as IEEE 754
requires of `sqrt`): with `e` the exponent of the last place of the root and
`m` the integer part of the root on the scale `2^e`, the result is `m * 2^e` or
`(m + 1) * 2^e`, whichever is nearer. -/
def fl_sqrt (v : ℚ) : ℚ :=
  if v ≤ 0 then 0
  else if v / 4 ^ (Int.log 2 v / 2 - 52)
      < ((Nat.sqrt ⌊v / 4 ^ (Int.log 2 v / 2 - 52)⌋₊ : ℚ) + 1 / 2) ^ 2
    then (Nat.sqrt ⌊v / 4 ^ (Int.log 2 v / 2 - 52)⌋₊ : ℚ) * 2 ^ (Int.log 2 v / 2 - 52)
  else if ((Nat.sqrt ⌊v / 4 ^ (Int.log 2 v / 2 - 52)⌋₊ : ℚ) + 1 / 2) ^ 2
      < v / 4 ^ (Int.log 2 v / 2 - 52)
    then ((Nat.sqrt ⌊v / 4 ^ (Int.log 2 v / 2 - 52)⌋₊ : ℚ) + 1) * 2 ^ (Int.log 2 v / 2 - 52)
  else if Nat.sqrt ⌊v / 4 ^ (Int.log 2 v / 2 - 52)⌋₊ % 2 = 0
    then (Nat.sqrt ⌊v / 4 ^ (Int.log 2 v / 2 - 52)⌋₊ : ℚ) * 2 ^ (Int.log 2 v / 2 - 52)
  else ((Nat.sqrt ⌊v / 4 ^ (Int.log 2 v / 2 - 52)⌋₊ : ℚ) + 1) * 2 ^ (Int.log 2 v / 2 - 52)

/-- The double that the literal `0.01` of `#define cutoff 0.01` denotes. -/
def cutoff_fl : ℚ := fl (1 / 100)

/-- The double that the literal `0.01` of `#define mass 0.01` denotes. -/
def mass_fl : ℚ := fl (1 / 100)

/-- `#define min_r (cutoff/100)` on doubles. -/
def min_r_fl : ℚ := fl (cutoff_fl / 100)

/-- The double that the literal `0.0005` of `#define dt 0.0005` denotes. -/
def dt_fl : ℚ := fl (5 / 10000)

/-- `apply_force` on doubles: every operation of lines 174-200 is rounded. -/
def apply_force_fl (particle neighbor : particle_t) (d : Diagnostics) :
    particle_t × Diagnostics :=
  let dx := fl (neighbor.x - particle.x)
  let dy := fl (neighbor.y - particle.y)
  let r2 := fl (fl (dx * dx) + fl (dy * dy))
  if r2 > fl (cutoff_fl * cutoff_fl) then
    (particle, d)
  else
    let d1 : Diagnostics :=
      if r2 ≠ 0 then
        { dmin := if fl (r2 / fl (cutoff_fl * cutoff_fl)) < fl (d.dmin * d.dmin)
            then fl (fl_sqrt r2 / cutoff_fl) else d.dmin
          davg := fl (d.davg + fl (fl_sqrt r2 / cutoff_fl))
          navg := d.navg + 1 }
      else d
    let r2c := max r2 (fl (min_r_fl * min_r_fl))
    let r := fl_sqrt r2c
    let c := fl (fl (fl (1 - fl (cutoff_fl / r)) / r2c) / mass_fl)
    ({ particle with
        ax := fl (particle.ax + fl (c * dx))
        ay := fl (particle.ay + fl (c * dy)) }, d1)

/-- The body of a wall loop on doubles: `p.x = p.x < 0 ? -p.x : 2*size-p.x;`
(a negation is exact). -/
def reflect_fl (size x : ℚ) : ℚ := if x < 0 then -x else fl (fl (2 * size) - x)

/-- One of the loops `while( p.x < 0 || p.x > size ) { … }` of `move` on
doubles; one unit of fuel per iteration. -/
def bounce_fl (size : ℚ) : ℕ → ℚ → ℚ → Option (ℚ × ℚ)
  | 0, x, v => if x < 0 ∨ x > size then none else some (x, v)
  | fuel + 1, x, v =>
    if x < 0 ∨ x > size then bounce_fl size fuel (reflect_fl size x) (-v) else some (x, v)

/-- `move( particle_t &p )` on doubles. -/
def move_fl (size : ℚ) (fuel : ℕ) (p : particle_t) : Option particle_t :=
  let vx := fl (p.vx + fl (p.ax * dt_fl))
  let vy := fl (p.vy + fl (p.ay * dt_fl))
  let x := fl (p.x + fl (vx * dt_fl))
  let y := fl (p.y + fl (vy * dt_fl))
  match bounce_fl size fuel x vx with
  | none => none
  | some (x1, vx1) =>
    match bounce_fl size fuel y vy with
    | none => none
    | some (y1, vy1) => some { p with x := x1, y := y1, vx := vx1, vy := vy1 }

namespace QuadTreeNode

/-- The constructor on doubles. -/
def new_fl (x y width height : ℚ) : QuadTreeNode :=
  node x y width height true initial_p NULL NULL NULL NULL
    (fl (width / 2)) (fl (height / 2)) (fl (x + fl (width / 2))) (fl (y + fl (height / 2)))

/-- `QuadTreeNode::insert(particle_t* p)` on doubles: the half widths and the
midpoints of lines 56-59 and 78-79 are rounded. -/
def insert_fl : ℕ → QuadTreeNode → particle_t → Option QuadTreeNode
  | 0, _, _ => none
  | _ + 1, NULL, _ => none
  | fuel + 1, node x y width height external q NW NE SW SE wn0 hn0 xmid0 ymid0, p =>
    if external then
      match q with
      | none => some (node x y width height external (some p) NW NE SW SE wn0 hn0 xmid0 ymid0)
      | some q =>
        let wn := fl (width / 2)
        let hn := fl (height / 2)
        let xmid := fl (x + wn)
        let ymid := fl (y + hn)
        match insert_fl fuel
            (node x y width height false (some q) (new_fl x y wn hn) (new_fl xmid y wn hn)
              (new_fl x ymid wn hn) (new_fl xmid ymid wn hn) wn0 hn0 xmid0 ymid0) q with
        | none => none
        | some this1 => insert_fl fuel this1 p
    else
      let xmid := fl (x + fl (width / 2))
      let ymid := fl (y + fl (height / 2))
      let pltx := decide (p.x < xmid)
      let plty := decide (p.y < ymid)
      if pltx && plty then
        (insert_fl fuel NW p).map
          (fun c => node x y width height external q c NE SW SE wn0 hn0 xmid0 ymid0)
      else if !pltx && plty then
        (insert_fl fuel NE p).map
          (fun c => node x y width height external q NW c SW SE wn0 hn0 xmid0 ymid0)
      else if pltx && !plty then
        (insert_fl fuel SW p).map
          (fun c => node x y width height external q NW NE c SE wn0 hn0 xmid0 ymid0)
      else if !pltx && !plty then
        (insert_fl fuel SE p).map
          (fun c => node x y width height external q NW NE SW c wn0 hn0 xmid0 ymid0)
      else
        some (node x y width height external q NW NE SW SE wn0 hn0 xmid0 ymid0)

/-- Inserting a sequence of particles on doubles. -/
def insert_all_fl (fuel : ℕ) : QuadTreeNode → List particle_t → Option QuadTreeNode
  | t, [] => some t
  | t, p :: ps =>
    match insert_fl fuel t p with
    | none => none
    | some t1 => insert_all_fl fuel t1 ps

/-- The child slot that the quadrant rule names on doubles. -/
def route_fl (t : QuadTreeNode) (a b : ℚ) : Quadrant :=
  quadrantOf (fl ((region t).x + fl ((region t).width / 2)))
    (fl ((region t).y + fl ((region t).height / 2))) a b

end QuadTreeNode

/-- The region of a child as lines 56-65 compute it on doubles. -/
def Region.quadrant_fl (R : Region) : Quadrant → Region
  | Quadrant.NW => ⟨R.x, R.y, fl (R.width / 2), fl (R.height / 2)⟩
  | Quadrant.NE => ⟨fl (R.x + fl (R.width / 2)), R.y, fl (R.width / 2), fl (R.height / 2)⟩
  | Quadrant.SW => ⟨R.x, fl (R.y + fl (R.height / 2)), fl (R.width / 2), fl (R.height / 2)⟩
  | Quadrant.SE =>
    ⟨fl (R.x + fl (R.width / 2)), fl (R.y + fl (R.height / 2)), fl (R.width / 2),
      fl (R.height / 2)⟩

/-- The regions met on the way down from the root `(0, 0, 3, 3)` towards the
corner `x = 3`. -/
def corner_regions (R : Region) : Prop :=
  (∃ k : ℕ, k ≤ 51 ∧ R.x = 3 - 3 / 2 ^ k ∧ R.width = 3 / 2 ^ k)
  ∨ (R.x = 3 - 1 / 2 ^ 50 ∧ R.width = 3 / 2 ^ 52)
  ∨ (R.x = 3 - 1 / 2 ^ 51 ∧ R.width = 3 / 2 ^ 53)
  ∨ (R.x = 3 - 1 / 2 ^ 51 ∧ 0 ≤ R.width ∧ R.width ≤ 3 / 2 ^ 54)

/-! # Theorems -/

/-! ### Double precision: evaluation of `fl` and `fl_sqrt` -/

theorem round_even_near (q : ℚ) (m : ℤ) (h : |q - m| < 1 / 2) : round_even q = m := by
  rw [abs_lt] at h
  obtain ⟨h1, h2⟩ := h
  rcases le_or_lt (m : ℚ) q with hle | hlt
  · have hf : ⌊q⌋ = m := by
      rw [Int.floor_eq_iff]
      constructor
      · exact hle
      · linarith
    unfold round_even
    rw [hf, if_pos (by linarith)]
  · have hf : ⌊q⌋ = m - 1 := by
      rw [Int.floor_eq_iff]
      push_cast
      constructor <;> linarith
    unfold round_even
    rw [hf]
    push_cast
    rw [if_neg (by linarith), if_pos (by linarith)]
    ring

theorem round_even_int (n : ℤ) : round_even (n : ℚ) = n :=
  round_even_near _ n (by simp)

theorem round_even_tie (m : ℤ) :
    round_even ((m : ℚ) + 1 / 2) = if m % 2 = 0 then m else m + 1 := by
  have hf : ⌊(m : ℚ) + 1 / 2⌋ = m := by
    rw [Int.floor_eq_iff]
    constructor <;> linarith
  unfold round_even
  rw [hf]
  rw [if_neg (by linarith), if_neg (by linarith)]

theorem round_even_bounds (q : ℚ) (hq : 0 ≤ q) :
    0 ≤ round_even q ∧ (round_even q : ℚ) ≤ 2 * q := by
  have hf0 : 0 ≤ ⌊q⌋ := Int.floor_nonneg.mpr hq
  have hfq : (⌊q⌋ : ℚ) ≤ q := Int.floor_le q
  have hf0' : (0 : ℚ) ≤ (⌊q⌋ : ℚ) := by exact_mod_cast hf0
  unfold round_even
  split_ifs with h1 h2 h3
  · exact ⟨hf0, by linarith⟩
  · refine ⟨by omega, ?_⟩
    push_cast
    linarith
  · exact ⟨hf0, by linarith⟩
  · refine ⟨by omega, ?_⟩
    push_cast
    linarith

theorem ulp_exp_eq (x : ℚ) (e : ℤ) (he : -1074 ≤ e) (hlo : (2 : ℚ) ^ (e + 52) ≤ |x|)
    (hhi : |x| < (2 : ℚ) ^ (e + 53)) : ulp_exp x = e := by
  have hpos : 0 < |x| := lt_of_lt_of_le (by positivity) hlo
  have h1 : e + 52 ≤ Int.log 2 |x| := by
    rw [← Int.zpow_le_iff_le_log (by norm_num) hpos]
    exact_mod_cast hlo
  have h2 : Int.log 2 |x| < e + 53 := by
    rw [← Int.lt_zpow_iff_log_lt (by norm_num) hpos]
    exact_mod_cast hhi
  unfold ulp_exp
  rw [max_eq_left (by omega)]
  omega

theorem ulp_exp_neg (x : ℚ) : ulp_exp (-x) = ulp_exp x := by
  unfold ulp_exp
  rw [abs_neg]

theorem round_even_neg (q : ℚ) : round_even (-q) = -round_even q := by
  have hfl := Int.floor_le q
  have hlt := Int.lt_floor_add_one q
  rcases lt_trichotomy (q - ⌊q⌋) (1 / 2) with h | h | h
  · have h1 : round_even q = ⌊q⌋ := round_even_near q ⌊q⌋ (by rw [abs_lt]; constructor <;> linarith)
    rw [h1]
    apply round_even_near
    push_cast
    rw [abs_lt]
    constructor <;> linarith
  · have hq : q = (⌊q⌋ : ℚ) + 1 / 2 := by linarith
    have hq' : -q = ((-⌊q⌋ - 1 : ℤ) : ℚ) + 1 / 2 := by push_cast; linarith
    rw [hq', round_even_tie]
    conv_rhs => rw [hq, round_even_tie]
    by_cases he : ⌊q⌋ % 2 = 0
    · rw [if_pos he, if_neg (by omega)]
      ring
    · rw [if_neg he, if_pos (by omega)]
      ring
  · have h1 : round_even q = ⌊q⌋ + 1 :=
      round_even_near q (⌊q⌋ + 1) (by push_cast; rw [abs_lt]; constructor <;> linarith)
    rw [h1]
    apply round_even_near
    push_cast
    rw [abs_lt]
    constructor <;> linarith

/-- Rounding commutes with negation. -/
theorem fl_neg (x : ℚ) : fl (-x) = -fl x := by
  unfold fl
  rw [ulp_exp_neg, neg_div, round_even_neg]
  push_cast
  ring

/-- Evaluation of `fl` at a positive rational once its binade is known: `m` is
the integer nearest to `x / 2^e`. -/
theorem fl_eq (x : ℚ) (e m : ℤ) (he : -1074 ≤ e) (hlo : (2 : ℚ) ^ (e + 52) ≤ x)
    (hhi : x < (2 : ℚ) ^ (e + 53)) (h1 : (m : ℚ) - 1 / 2 < x / 2 ^ e)
    (h2 : x / 2 ^ e < (m : ℚ) + 1 / 2) :
    fl x = m * 2 ^ e := by
  have hpos : 0 < x := lt_of_lt_of_le (by positivity) hlo
  unfold fl
  rw [ulp_exp_eq x e he (by rwa [abs_of_pos hpos]) (by rwa [abs_of_pos hpos]),
    round_even_near _ m (by rw [abs_lt]; constructor <;> linarith)]

/-- Evaluation of `fl` at a tie. -/
theorem fl_eq_tie (x : ℚ) (e m : ℤ) (he : -1074 ≤ e) (hlo : (2 : ℚ) ^ (e + 52) ≤ x)
    (hhi : x < (2 : ℚ) ^ (e + 53)) (h1 : x / 2 ^ e = (m : ℚ) + 1 / 2) :
    fl x = (if m % 2 = 0 then m else m + 1 : ℤ) * 2 ^ e := by
  have hpos : 0 < x := lt_of_lt_of_le (by positivity) hlo
  unfold fl
  rw [ulp_exp_eq x e he (by rwa [abs_of_pos hpos]) (by rwa [abs_of_pos hpos]), h1,
    round_even_tie]

theorem fl_zero : fl 0 = 0 := by
  unfold fl
  simp [round_even]

/-- A rounded non-negative value is non-negative and at most twice the value. -/
theorem fl_bounds (x : ℚ) (hx : 0 ≤ x) : 0 ≤ fl x ∧ fl x ≤ 2 * x := by
  unfold fl
  have hp : (0 : ℚ) < 2 ^ ulp_exp x := by positivity
  obtain ⟨h1, h2⟩ := round_even_bounds (x / 2 ^ ulp_exp x) (div_nonneg hx hp.le)
  constructor
  · exact mul_nonneg (by exact_mod_cast h1) hp.le
  · calc (round_even (x / 2 ^ ulp_exp x) : ℚ) * 2 ^ ulp_exp x
        ≤ (2 * (x / 2 ^ ulp_exp x)) * 2 ^ ulp_exp x := mul_le_mul_of_nonneg_right h2 hp.le
      _ = 2 * x := by field_simp

/-- A value with at most 53 significant bits above the subnormal quantum is a
double: rounding returns it. -/
theorem fl_representable (M e : ℤ) (hM : |M| < 2 ^ 53) (he : -1074 ≤ e) :
    fl ((M : ℚ) * 2 ^ e) = (M : ℚ) * 2 ^ e := by
  by_cases hM0 : M = 0
  · subst hM0
    simp [fl_zero]
  have hxpos : 0 < |(M : ℚ) * 2 ^ e| := by
    rw [abs_pos]
    exact mul_ne_zero (by exact_mod_cast hM0) (by positivity)
  have hle : ulp_exp ((M : ℚ) * 2 ^ e) ≤ e := by
    unfold ulp_exp
    apply max_le _ he
    have h2 : Int.log 2 |(M : ℚ) * 2 ^ e| < e + 53 := by
      rw [← Int.lt_zpow_iff_log_lt (by norm_num) hxpos]
      rw [abs_mul, abs_of_pos (by positivity : (0 : ℚ) < 2 ^ e), zpow_add₀ (by norm_num)]
      push_cast
      rw [mul_comm]
      apply mul_lt_mul_of_pos_left _ (by positivity)
      have : |(M : ℚ)| < ((2 ^ 53 : ℤ) : ℚ) := by exact_mod_cast hM
      norm_num at this ⊢
      exact this
    omega
  obtain ⟨k, hk⟩ : ∃ k : ℕ, e = ulp_exp ((M : ℚ) * 2 ^ e) + k :=
    ⟨(e - ulp_exp ((M : ℚ) * 2 ^ e)).toNat, by omega⟩
  unfold fl
  generalize ulp_exp ((M : ℚ) * 2 ^ e) = u at hk
  subst hk
  have hq : (M : ℚ) * 2 ^ (u + (k : ℤ)) / 2 ^ u = ((M * 2 ^ k : ℤ) : ℚ) := by
    rw [zpow_add₀ (by norm_num)]
    push_cast
    field_simp
    ring
  rw [hq, round_even_int]
  push_cast
  rw [zpow_add₀ (by norm_num)]
  simp only [zpow_natCast]
  ring

theorem log_two_eq (v : ℚ) (k : ℤ) (hlo : (2 : ℚ) ^ k ≤ v) (hhi : v < (2 : ℚ) ^ (k + 1)) :
    Int.log 2 v = k := by
  have hpos : 0 < v := lt_of_lt_of_le (by positivity) hlo
  have h1 : k ≤ Int.log 2 v := by
    rw [← Int.zpow_le_iff_le_log (by norm_num) hpos]
    exact_mod_cast hlo
  have h2 : Int.log 2 v < k + 1 := by
    rw [← Int.lt_zpow_iff_log_lt (by norm_num) hpos]
    exact_mod_cast hhi
  omega

/-- Evaluation of `fl_sqrt` when the root is rounded up. -/
theorem fl_sqrt_eq_up (v : ℚ) (k : ℤ) (m : ℕ) (hlo : (2 : ℚ) ^ k ≤ v)
    (hhi : v < (2 : ℚ) ^ (k + 1)) (h1 : (m : ℚ) ^ 2 ≤ v / 4 ^ (k / 2 - 52))
    (h2 : v / 4 ^ (k / 2 - 52) < ((m : ℚ) + 1) ^ 2)
    (h3 : ((m : ℚ) + 1 / 2) ^ 2 < v / 4 ^ (k / 2 - 52)) :
    fl_sqrt v = ((m : ℚ) + 1) * 2 ^ (k / 2 - 52) := by
  have hpos : 0 < v := lt_of_lt_of_le (by positivity) hlo
  have hV : 0 ≤ v / 4 ^ (k / 2 - 52) := div_nonneg hpos.le (by positivity)
  have hm : Nat.sqrt ⌊v / 4 ^ (k / 2 - 52)⌋₊ = m := by
    symm
    rw [Nat.eq_sqrt]
    constructor
    · apply Nat.le_floor
      push_cast
      rw [← sq]
      exact h1
    · rw [Nat.floor_lt hV]
      push_cast
      rw [← sq]
      exact h2
  unfold fl_sqrt
  rw [if_neg (not_le.mpr hpos), log_two_eq v k hlo hhi, hm, if_neg (not_lt.mpr h3.le),
    if_pos h3]

/-- Evaluation of `fl_sqrt` when the root is rounded down. -/
theorem fl_sqrt_eq_down (v : ℚ) (k : ℤ) (m : ℕ) (hlo : (2 : ℚ) ^ k ≤ v)
    (hhi : v < (2 : ℚ) ^ (k + 1)) (h1 : (m : ℚ) ^ 2 ≤ v / 4 ^ (k / 2 - 52))
    (h3 : v / 4 ^ (k / 2 - 52) < ((m : ℚ) + 1 / 2) ^ 2) :
    fl_sqrt v = (m : ℚ) * 2 ^ (k / 2 - 52) := by
  have hpos : 0 < v := lt_of_lt_of_le (by positivity) hlo
  have hV : 0 ≤ v / 4 ^ (k / 2 - 52) := div_nonneg hpos.le (by positivity)
  have hm : Nat.sqrt ⌊v / 4 ^ (k / 2 - 52)⌋₊ = m := by
    symm
    rw [Nat.eq_sqrt]
    constructor
    · apply Nat.le_floor
      push_cast
      rw [← sq]
      exact h1
    · rw [Nat.floor_lt hV]
      push_cast
      rw [← sq]
      have : ((m : ℚ) + 1 / 2) ^ 2 < ((m : ℚ) + 1) ^ 2 := by
        have hm0 : (0 : ℚ) ≤ m := Nat.cast_nonneg m
        nlinarith
      linarith
  unfold fl_sqrt
  rw [if_neg (not_le.mpr hpos), log_two_eq v k hlo hhi, hm, if_pos h3]

/-! ### Auxiliary facts on the partition -/

theorem imin_eq_min (a b : ℤ) : imin a b = min a b := by
  unfold imin
  split_ifs with h
  · exact (min_eq_left h.le).symm
  · exact (min_eq_right (not_lt.mp h)).symm

theorem particle_per_proc_eq_ediv {n n_proc : ℤ} (hn : 0 ≤ n) (hp : 1 ≤ n_proc) :
    particle_per_proc n n_proc = (n + n_proc - 1) / n_proc := by
  unfold particle_per_proc
  exact Int.tdiv_eq_ediv (by omega) (by omega)

theorem particle_per_proc_nonneg {n n_proc : ℤ} (hn : 0 ≤ n) (hp : 1 ≤ n_proc) :
    0 ≤ particle_per_proc n n_proc := by
  rw [particle_per_proc_eq_ediv hn hp]
  exact Int.ediv_nonneg (by omega) (by omega)

theorem mul_particle_per_proc_le {n n_proc : ℤ} (hn : 0 ≤ n) (hp : 1 ≤ n_proc) :
    n_proc * particle_per_proc n n_proc ≤ n + n_proc - 1 := by
  rw [particle_per_proc_eq_ediv hn hp, mul_comm]
  exact Int.ediv_mul_le _ (by omega)

theorem le_mul_particle_per_proc {n n_proc : ℤ} (hn : 0 ≤ n) (hp : 1 ≤ n_proc) :
    n ≤ n_proc * particle_per_proc n n_proc := by
  rw [particle_per_proc_eq_ediv hn hp]
  have h := Int.lt_ediv_add_one_mul_self (n + n_proc - 1) (show 0 < n_proc by omega)
  have e : ((n + n_proc - 1) / n_proc + 1) * n_proc
      = n_proc * ((n + n_proc - 1) / n_proc) + n_proc := by ring
  rw [e] at h
  omega

theorem partition_offsets_length {n_proc : ℤ} (n : ℤ) (hp : 1 ≤ n_proc) :
    ((partition_offsets n n_proc).length : ℤ) = n_proc + 1 := by
  simp only [partition_offsets, List.length_map, List.length_range]
  exact Int.toNat_of_nonneg (show 0 ≤ n_proc + 1 by omega)

theorem partition_sizes_length {n_proc : ℤ} (n : ℤ) (hp : 1 ≤ n_proc) :
    ((partition_sizes n n_proc).length : ℤ) = n_proc := by
  simp only [partition_sizes, List.length_map, List.length_range]
  exact Int.toNat_of_nonneg (show 0 ≤ n_proc by omega)

/-- Closed form of an in-bounds read of `partition_offsets`. -/
theorem partition_offsets_getD {n n_proc : ℤ} (i : ℕ) (hi : (i : ℤ) ≤ n_proc) :
    (partition_offsets n n_proc).getD i 0 = min ((i : ℤ) * particle_per_proc n n_proc) n := by
  have hlt : i < (n_proc + 1).toNat := by omega
  simp only [partition_offsets, List.getD_eq_getElem?_getD, List.getElem?_map,
    List.getElem?_range hlt, imin_eq_min, Option.map_some', Option.getD_some]

/-- Closed form of an in-bounds read of `partition_sizes`. -/
theorem partition_sizes_getD {n n_proc : ℤ} (i : ℕ) (hi : (i : ℤ) < n_proc) :
    (partition_sizes n n_proc).getD i 0
      = min (((i : ℤ) + 1) * particle_per_proc n n_proc) n
          - min ((i : ℤ) * particle_per_proc n n_proc) n := by
  have hlt : i < n_proc.toNat := by omega
  have h1 := @partition_offsets_getD n n_proc (i + 1) (by push_cast; omega)
  have h0 := @partition_offsets_getD n n_proc i (by omega)
  simp only [partition_sizes, List.getD_eq_getElem?_getD, List.getElem?_map,
    List.getElem?_range hlt, Option.map_some', Option.getD_some] at h1 h0 ⊢
  rw [h1, h0]
  push_cast
  rfl

/-- A list of consecutive differences sums to the difference of the ends. -/
theorem sum_map_range_sub (g : ℕ → ℤ) (m : ℕ) :
    ((List.range m).map (fun i => g (i + 1) - g i)).sum = g m - g 0 := by
  induction m with
  | zero => simp
  | succ k ih =>
    rw [List.range_succ, List.map_append, List.sum_append, ih]
    simp

theorem particle_per_proc_eq_ceil {n n_proc : ℤ} (hn : 0 ≤ n) (hp : 1 ≤ n_proc) :
    particle_per_proc n n_proc = ⌈(n : ℚ) / (n_proc : ℚ)⌉ := by
  symm
  rw [Int.ceil_eq_iff]
  have hP : (0 : ℚ) < (n_proc : ℚ) := by exact_mod_cast (show (0 : ℤ) < n_proc by omega)
  have h1 : ((n_proc * particle_per_proc n n_proc : ℤ) : ℚ) ≤ ((n + n_proc - 1 : ℤ) : ℚ) := by
    exact_mod_cast mul_particle_per_proc_le hn hp
  have h2 : ((n : ℤ) : ℚ) ≤ ((n_proc * particle_per_proc n n_proc : ℤ) : ℚ) := by
    exact_mod_cast le_mul_particle_per_proc hn hp
  push_cast at h1 h2
  constructor
  · rw [lt_div_iff₀ hP]
    nlinarith
  · rw [div_le_iff₀ hP]
    nlinarith

/-- Offsets never decrease. -/
theorem partition_offsets_mono {n n_proc : ℤ} (hn : 0 ≤ n) (hp : 1 ≤ n_proc) (i : ℕ)
    (hi : (i : ℤ) < n_proc) :
    (partition_offsets n n_proc).getD i 0 ≤ (partition_offsets n n_proc).getD (i + 1) 0 := by
  rw [partition_offsets_getD i hi.le, partition_offsets_getD (i + 1) (by push_cast; omega)]
  have hc := particle_per_proc_nonneg hn hp
  apply min_le_min_right
  push_cast
  nlinarith

/-- The slice that holds global index `k` is slice `k / particle_per_proc`. -/
theorem slice_of_index {n n_proc : ℤ} (hn : 0 ≤ n) (hp : 1 ≤ n_proc) (k : ℤ) (hk0 : 0 ≤ k)
    (hkn : k < n) (i : ℕ) :
    ((i : ℤ) < n_proc ∧ (partition_offsets n n_proc).getD i 0 ≤ k
        ∧ k < (partition_offsets n n_proc).getD (i + 1) 0)
      ↔ (i : ℤ) = k / particle_per_proc n n_proc := by
  have hc := particle_per_proc_nonneg hn hp
  have hle := le_mul_particle_per_proc hn hp
  have hcpos : 0 < particle_per_proc n n_proc := by
    rcases hc.lt_or_eq with h | h
    · exact h
    · rw [← h] at hle; omega
  have key : ((i : ℤ) = k / particle_per_proc n n_proc)
      ↔ ((i : ℤ) * particle_per_proc n n_proc ≤ k
          ∧ k < ((i : ℤ) + 1) * particle_per_proc n n_proc) := by
    rw [← Int.le_ediv_iff_mul_le hcpos, ← Int.ediv_lt_iff_lt_mul hcpos]
    omega
  rw [key]
  constructor
  · rintro ⟨hi, h1, h2⟩
    rw [partition_offsets_getD i hi.le] at h1
    rw [partition_offsets_getD (i + 1) (by push_cast; omega)] at h2
    push_cast at h2
    exact ⟨(min_le_iff.mp h1).resolve_right (by omega), (lt_min_iff.mp h2).1⟩
  · rintro ⟨h1, h2⟩
    have hi : (i : ℤ) < n_proc := by
      by_contra hcon
      have : n_proc * particle_per_proc n n_proc ≤ (i : ℤ) * particle_per_proc n n_proc :=
        mul_le_mul_of_nonneg_right (not_lt.mp hcon) hc
      omega
    refine ⟨hi, ?_, ?_⟩
    · rw [partition_offsets_getD i hi.le]
      exact le_trans (min_le_left _ _) h1
    · rw [partition_offsets_getD (i + 1) (by push_cast; omega)]
      push_cast
      exact lt_min h2 hkn

/-- Every slice size lies between `0` and `particle_per_proc`. -/
theorem partition_sizes_range {n n_proc : ℤ} (hn : 0 ≤ n) (hp : 1 ≤ n_proc) (i : ℕ)
    (hi : (i : ℤ) < n_proc) :
    0 ≤ (partition_sizes n n_proc).getD i 0
      ∧ (partition_sizes n n_proc).getD i 0 ≤ particle_per_proc n n_proc := by
  have hc := particle_per_proc_nonneg hn hp
  rw [partition_sizes_getD i hi]
  have hm : min ((i : ℤ) * particle_per_proc n n_proc) n
      ≤ min (((i : ℤ) + 1) * particle_per_proc n n_proc) n :=
    min_le_min_right _ (by nlinarith)
  refine ⟨by omega, ?_⟩
  rcases le_total ((i : ℤ) * particle_per_proc n n_proc) n with h | h
  · rw [min_eq_left h]
    have := min_le_left (((i : ℤ) + 1) * particle_per_proc n n_proc) n
    nlinarith
  · rw [min_eq_right h]
    have := min_le_right (((i : ℤ) + 1) * particle_per_proc n n_proc) n
    omega

/-- No intermediate value of the partition code leaves the range of a 32-bit
`int` as long as `n + n_proc - 1` fits: on that range the integer model is the
machine arithmetic. -/
theorem partition_fits_int {n n_proc : ℤ} (hn : 0 ≤ n) (hp : 1 ≤ n_proc)
    (hfit : n + n_proc - 1 ≤ INT_MAX) (i : ℕ) (hi : (i : ℤ) ≤ n_proc) :
    0 ≤ n + n_proc - 1 ∧ 0 ≤ particle_per_proc n n_proc
      ∧ particle_per_proc n n_proc ≤ INT_MAX
      ∧ 0 ≤ (i : ℤ) * particle_per_proc n n_proc
      ∧ (i : ℤ) * particle_per_proc n n_proc ≤ INT_MAX := by
  have hc := particle_per_proc_nonneg hn hp
  have hle := mul_particle_per_proc_le hn hp
  have h1 : (i : ℤ) * particle_per_proc n n_proc ≤ n_proc * particle_per_proc n n_proc :=
    mul_le_mul_of_nonneg_right hi hc
  have h2 : particle_per_proc n n_proc ≤ n_proc * particle_per_proc n n_proc := by
    nlinarith
  refine ⟨by omega, hc, by omega, ?_, by omega⟩
  exact mul_nonneg (by omega) hc

/-! ### C2, C3: the partition -/

/-- C2: for every particle count `n ≥ 0` and worker count `n_proc ≥ 1` the
partition computed in `main` uses `particle_per_proc = ⌈n / n_proc⌉`, has
`n_proc + 1` offsets `partition_offsets[i] = min(i * particle_per_proc, n)` and
`n_proc` sizes `partition_sizes[i] = partition_offsets[i+1] - partition_offsets[i]`;
the first offset is `0`, the last is `n`, the offsets never decrease, every size
lies between `0` and `⌈n / n_proc⌉`, the sizes sum to `n`, and every particle
index `k < n` lies in exactly one slice. -/
theorem partition_covers (n n_proc : ℤ) (hn : 0 ≤ n) (hp : 1 ≤ n_proc) :
    particle_per_proc n n_proc = ⌈(n : ℚ) / (n_proc : ℚ)⌉
    ∧ ((partition_offsets n n_proc).length : ℤ) = n_proc + 1
    ∧ ((partition_sizes n n_proc).length : ℤ) = n_proc
    ∧ (∀ i : ℕ, (i : ℤ) ≤ n_proc →
        (partition_offsets n n_proc).getD i 0
          = min ((i : ℤ) * particle_per_proc n n_proc) n)
    ∧ (∀ i : ℕ, (i : ℤ) < n_proc →
        (partition_sizes n n_proc).getD i 0
          = (partition_offsets n n_proc).getD (i + 1) 0
              - (partition_offsets n n_proc).getD i 0)
    ∧ (partition_offsets n n_proc).getD 0 0 = 0
    ∧ (partition_offsets n n_proc).getD n_proc.toNat 0 = n
    ∧ (∀ i : ℕ, (i : ℤ) < n_proc →
        (partition_offsets n n_proc).getD i 0
          ≤ (partition_offsets n n_proc).getD (i + 1) 0)
    ∧ (∀ i : ℕ, (i : ℤ) < n_proc →
        0 ≤ (partition_sizes n n_proc).getD i 0
        ∧ (partition_sizes n n_proc).getD i 0 ≤ particle_per_proc n n_proc)
    ∧ (partition_sizes n n_proc).sum = n
    ∧ (∀ k : ℤ, 0 ≤ k → k < n →
        ∃! i : ℕ, (i : ℤ) < n_proc ∧ (partition_offsets n n_proc).getD i 0 ≤ k
          ∧ k < (partition_offsets n n_proc).getD (i + 1) 0) := by
  have hc := particle_per_proc_nonneg hn hp
  have hle := le_mul_particle_per_proc hn hp
  have hsz : ∀ i : ℕ, (i : ℤ) < n_proc →
      (partition_sizes n n_proc).getD i 0
        = (partition_offsets n n_proc).getD (i + 1) 0
            - (partition_offsets n n_proc).getD i 0 := by
    intro i hi
    rw [partition_sizes_getD i hi, partition_offsets_getD i hi.le,
      partition_offsets_getD (i + 1) (by push_cast; omega)]
    push_cast
    rfl
  have hlast : (partition_offsets n n_proc).getD n_proc.toNat 0 = n := by
    rw [partition_offsets_getD n_proc.toNat (by omega)]
    have e : ((n_proc.toNat : ℕ) : ℤ) = n_proc := Int.toNat_of_nonneg (by omega)
    rw [e]
    exact min_eq_right hle
  have hfirst : (partition_offsets n n_proc).getD 0 0 = 0 := by
    rw [partition_offsets_getD 0 (by push_cast; omega)]
    simpa using hn
  refine ⟨particle_per_proc_eq_ceil hn hp, partition_offsets_length n hp,
    partition_sizes_length n hp, fun i hi => partition_offsets_getD i hi, hsz,
    hfirst, hlast, partition_offsets_mono hn hp, ?_, ?_, ?_⟩
  · exact fun i hi => partition_sizes_range hn hp i hi
  · have hcongr : partition_sizes n n_proc
        = (List.range n_proc.toNat).map
            (fun i => (partition_offsets n n_proc).getD (i + 1) 0
                        - (partition_offsets n n_proc).getD i 0) := rfl
    rw [hcongr, sum_map_range_sub (fun i => (partition_offsets n n_proc).getD i 0)]
    rw [hlast, hfirst]
    ring
  · intro k hk0 hkn
    have hq : 0 ≤ k / particle_per_proc n n_proc := Int.ediv_nonneg hk0 hc
    refine ⟨(k / particle_per_proc n n_proc).toNat, ?_, ?_⟩
    · exact (slice_of_index hn hp k hk0 hkn _).mpr (Int.toNat_of_nonneg hq)
    · intro j hj
      have := (slice_of_index hn hp k hk0 hkn j).mp hj
      omega

/-- Witness for C2: five particles on four workers. -/
theorem partition_covers_witness :
    particle_per_proc 5 4 = ⌈((5 : ℤ) : ℚ) / ((4 : ℤ) : ℚ)⌉
    ∧ ((partition_offsets 5 4).length : ℤ) = 4 + 1
    ∧ ((partition_sizes 5 4).length : ℤ) = 4
    ∧ (∀ i : ℕ, (i : ℤ) ≤ 4 →
        (partition_offsets 5 4).getD i 0 = min ((i : ℤ) * particle_per_proc 5 4) 5)
    ∧ (∀ i : ℕ, (i : ℤ) < 4 →
        (partition_sizes 5 4).getD i 0
          = (partition_offsets 5 4).getD (i + 1) 0 - (partition_offsets 5 4).getD i 0)
    ∧ (partition_offsets 5 4).getD 0 0 = 0
    ∧ (partition_offsets 5 4).getD (4 : ℤ).toNat 0 = 5
    ∧ (∀ i : ℕ, (i : ℤ) < 4 →
        (partition_offsets 5 4).getD i 0 ≤ (partition_offsets 5 4).getD (i + 1) 0)
    ∧ (∀ i : ℕ, (i : ℤ) < 4 →
        0 ≤ (partition_sizes 5 4).getD i 0
        ∧ (partition_sizes 5 4).getD i 0 ≤ particle_per_proc 5 4)
    ∧ (partition_sizes 5 4).sum = 5
    ∧ (∀ k : ℤ, 0 ≤ k → k < 5 →
        ∃! i : ℕ, (i : ℤ) < 4 ∧ (partition_offsets 5 4).getD i 0 ≤ k
          ∧ k < (partition_offsets 5 4).getD (i + 1) 0) :=
  partition_covers 5 4 (by decide) (by decide)

/-- C3, as stated, fails: with five particles on four workers the worker of
rank 2 is not the last one and gets one particle, not `⌈5/4⌉ = 2`
(the sizes are `[2, 2, 1, 0]`). -/
theorem partition_sizes_not_all_full :
    (1 : ℤ) ≤ 5 ∧ (1 : ℤ) ≤ 4 ∧ partition_sizes 5 4 = [2, 2, 1, 0]
    ∧ particle_per_proc 5 4 = 2
    ∧ ¬ ((∀ rank : ℕ, (rank : ℤ) < 4 - 1 →
            (partition_sizes 5 4).getD rank 0 = particle_per_proc 5 4)
          ∧ (partition_sizes 5 4).getD 3 0 ≤ particle_per_proc 5 4) := by
  refine ⟨by decide, by decide, by decide, by decide, ?_⟩
  rintro ⟨h, -⟩
  exact absurd (h 2 (by decide)) (by decide)

/-- C3, amended: for `n ≥ 1` and `n_proc ≥ 1` every worker gets at most
`⌈n / n_proc⌉` particles; the worker of rank `r` gets exactly `⌈n / n_proc⌉`
whenever `(r + 1) * ⌈n / n_proc⌉ ≤ n`; once a worker gets fewer than
`⌈n / n_proc⌉`, every later worker gets none; and so every worker of rank
`< n_proc - 1` gets exactly `⌈n / n_proc⌉` when
`(n_proc - 1) * ⌈n / n_proc⌉ ≤ n`. -/
theorem partition_sizes_shape (n n_proc : ℤ) (hn : 1 ≤ n) (hp : 1 ≤ n_proc) :
    particle_per_proc n n_proc = ⌈(n : ℚ) / (n_proc : ℚ)⌉
    ∧ (∀ r : ℕ, (r : ℤ) < n_proc →
        0 ≤ (partition_sizes n n_proc).getD r 0
        ∧ (partition_sizes n n_proc).getD r 0 ≤ particle_per_proc n n_proc)
    ∧ (∀ r : ℕ, (r : ℤ) < n_proc → ((r : ℤ) + 1) * particle_per_proc n n_proc ≤ n →
        (partition_sizes n n_proc).getD r 0 = particle_per_proc n n_proc)
    ∧ (∀ r : ℕ, (r : ℤ) < n_proc →
        (partition_sizes n n_proc).getD r 0 < particle_per_proc n n_proc →
        ∀ s : ℕ, r < s → (s : ℤ) < n_proc → (partition_sizes n n_proc).getD s 0 = 0)
    ∧ ((n_proc - 1) * particle_per_proc n n_proc ≤ n →
        ∀ r : ℕ, (r : ℤ) < n_proc - 1 →
          (partition_sizes n n_proc).getD r 0 = particle_per_proc n n_proc) := by
  have hn0 : 0 ≤ n := by omega
  have hc := particle_per_proc_nonneg hn0 hp
  have full : ∀ r : ℕ, (r : ℤ) < n_proc → ((r : ℤ) + 1) * particle_per_proc n n_proc ≤ n →
      (partition_sizes n n_proc).getD r 0 = particle_per_proc n n_proc := by
    intro r hr h
    rw [partition_sizes_getD r hr, min_eq_left h, min_eq_left (by nlinarith)]
    ring
  refine ⟨particle_per_proc_eq_ceil hn0 hp, ?_, full, ?_, ?_⟩
  · exact fun r hr => partition_sizes_range hn0 hp r hr
  · intro r hr hlt s hrs hs
    have hover : n < ((r : ℤ) + 1) * particle_per_proc n n_proc := by
      by_contra hcon
      rw [full r hr (not_lt.mp hcon)] at hlt
      exact lt_irrefl _ hlt
    have hrs' : (r : ℤ) + 1 ≤ (s : ℤ) := by exact_mod_cast hrs
    have h1 : ((r : ℤ) + 1) * particle_per_proc n n_proc
        ≤ (s : ℤ) * particle_per_proc n n_proc := mul_le_mul_of_nonneg_right hrs' hc
    rw [partition_sizes_getD s hs, min_eq_right (by nlinarith), min_eq_right (by omega)]
    ring
  · intro hdiv r hr
    apply full r (by omega)
    have h1 : ((r : ℤ) + 1) * particle_per_proc n n_proc
        ≤ (n_proc - 1) * particle_per_proc n n_proc :=
      mul_le_mul_of_nonneg_right (by omega) hc
    omega

/-- Witness for amended C3: the partition of five particles over four workers. -/
theorem partition_sizes_shape_witness :
    particle_per_proc 5 4 = ⌈((5 : ℤ) : ℚ) / ((4 : ℤ) : ℚ)⌉
    ∧ (∀ r : ℕ, (r : ℤ) < 4 →
        0 ≤ (partition_sizes 5 4).getD r 0
        ∧ (partition_sizes 5 4).getD r 0 ≤ particle_per_proc 5 4)
    ∧ (∀ r : ℕ, (r : ℤ) < 4 → ((r : ℤ) + 1) * particle_per_proc 5 4 ≤ 5 →
        (partition_sizes 5 4).getD r 0 = particle_per_proc 5 4)
    ∧ (∀ r : ℕ, (r : ℤ) < 4 →
        (partition_sizes 5 4).getD r 0 < particle_per_proc 5 4 →
        ∀ s : ℕ, r < s → (s : ℤ) < 4 → (partition_sizes 5 4).getD s 0 = 0)
    ∧ ((4 - 1) * particle_per_proc 5 4 ≤ 5 →
        ∀ r : ℕ, (r : ℤ) < 4 - 1 →
          (partition_sizes 5 4).getD r 0 = particle_per_proc 5 4) :=
  partition_sizes_shape 5 4 (by decide) (by decide)

/-! ### C1: the gather-and-sum loop -/

theorem reduce_inner_succ (n m : ℕ) (a_p : List particle_t) (i : ℕ) (ps : List particle_t) :
    reduce_inner n (m + 1) a_p i ps
      = (reduce_inner n m a_p i ps).set i
          (accumulate ((reduce_inner n m a_p i ps).getD i default)
            (a_p.getD (i + n * m) default)) := by
  simp only [reduce_inner, List.range_succ, List.foldl_append, List.foldl_cons, List.foldl_nil]

theorem reduce_inner_length (n m : ℕ) (a_p : List particle_t) (i : ℕ) (ps : List particle_t) :
    (reduce_inner n m a_p i ps).length = ps.length := by
  induction m with
  | zero => simp [reduce_inner]
  | succ k ih => rw [reduce_inner_succ, List.length_set, ih]

/-- Effect of the inner loop on the record `i`: the `m` gathered records
`a_p[i + n*j]`, `j < m`, are added to the acceleration already stored there. -/
theorem reduce_inner_getD_self (n m : ℕ) (a_p : List particle_t) (i : ℕ)
    (ps : List particle_t) (hi : i < ps.length) :
    (reduce_inner n m a_p i ps).getD i default
      = { ps.getD i default with
          ax := (ps.getD i default).ax
                  + ∑ j in Finset.range m, (a_p.getD (i + n * j) default).ax
          ay := (ps.getD i default).ay
                  + ∑ j in Finset.range m, (a_p.getD (i + n * j) default).ay } := by
  induction m with
  | zero => simp [reduce_inner]
  | succ m ih =>
    have hl := reduce_inner_length n m a_p i ps
    rw [reduce_inner_succ, List.getD_eq_getElem?_getD, List.getElem?_set, if_pos rfl,
      if_pos (by omega), Option.getD_some, ih]
    simp only [accumulate, Finset.sum_range_succ, add_assoc]

/-- The inner loop for `i` leaves every other record alone. -/
theorem reduce_inner_getD_other (n m : ℕ) (a_p : List particle_t) (i : ℕ)
    (ps : List particle_t) (k : ℕ) (hk : i ≠ k) :
    (reduce_inner n m a_p i ps).getD k default = ps.getD k default := by
  induction m with
  | zero => simp [reduce_inner]
  | succ m ih =>
    rw [reduce_inner_succ, List.getD_eq_getElem?_getD, List.getElem?_set, if_neg hk,
      ← List.getD_eq_getElem?_getD, ih]

/-- Reading `a_p`: the record `i` of rank `j` sits at index `i + n*j`. -/
theorem MPI_Gather_getD (n : ℕ) (sendbufs : List (List particle_t))
    (hlen : ∀ b ∈ sendbufs, b.length = n) (i j : ℕ) (hi : i < n) :
    (MPI_Gather n sendbufs).getD (i + n * j) default
      = (sendbufs.getD j []).getD i default := by
  induction sendbufs generalizing j with
  | nil => simp [MPI_Gather]
  | cons b bs ih =>
    have hb : b.length = n := hlen b (List.mem_cons_self _ _)
    have hbs : ∀ c ∈ bs, c.length = n := fun c hc => hlen c (List.mem_cons_of_mem _ hc)
    have ih' := ih hbs
    simp only [MPI_Gather, List.flatMap_cons] at ih' ⊢
    rw [List.take_of_length_le (by omega)]
    cases j with
    | zero =>
      simp only [mul_zero, add_zero, List.getD_cons_zero]
      rw [List.getD_append _ _ _ _ (by omega)]
    | succ j =>
      rw [List.getD_cons_succ, ← ih' j]
      rw [List.getD_append_right _ _ _ _ (by rw [hb]; nlinarith)]
      congr 1
      rw [hb]
      have : n * (j + 1) = n * j + n := by ring
      omega

theorem reduce_forces_succ (n k m : ℕ) (a_p ps : List particle_t) :
    (List.range (k + 1)).foldl (fun ps i => reduce_inner n m a_p i ps) ps
      = reduce_inner n m a_p k
          ((List.range k).foldl (fun ps i => reduce_inner n m a_p i ps) ps) := by
  simp only [List.range_succ, List.foldl_append, List.foldl_cons, List.foldl_nil]

theorem reduce_outer_length (n k m : ℕ) (a_p ps : List particle_t) :
    ((List.range k).foldl (fun ps i => reduce_inner n m a_p i ps) ps).length = ps.length := by
  induction k with
  | zero => simp
  | succ k ih => rw [reduce_forces_succ, reduce_inner_length, ih]

/-- Effect of the first `k` rounds of the outer loop on record `i`. -/
theorem reduce_outer_getD (n k m : ℕ) (a_p ps : List particle_t) (hk : k ≤ ps.length)
    (i : ℕ) :
    ((List.range k).foldl (fun ps i => reduce_inner n m a_p i ps) ps).getD i default
      = if i < k then
          { ps.getD i default with
            ax := (ps.getD i default).ax
                    + ∑ j in Finset.range m, (a_p.getD (i + n * j) default).ax
            ay := (ps.getD i default).ay
                    + ∑ j in Finset.range m, (a_p.getD (i + n * j) default).ay }
        else ps.getD i default := by
  induction k with
  | zero => simp
  | succ k ih =>
    have ih' := ih (by omega)
    have hl := reduce_outer_length n k m a_p ps
    rw [reduce_forces_succ]
    rcases Nat.lt_trichotomy i k with h | h | h
    · rw [reduce_inner_getD_other _ _ _ _ _ _ (by omega), ih', if_pos h, if_pos (by omega)]
    · subst h
      rw [reduce_inner_getD_self _ _ _ _ _ (by omega), ih', if_neg (lt_irrefl _),
        if_pos (by omega)]
    · rw [reduce_inner_getD_other _ _ _ _ _ _ (by omega), ih', if_neg (by omega),
        if_neg (by omega)]

/-- What rank 0 holds after the gather-and-sum loop: its own partial
acceleration for particle `i`, plus the partial accelerations of all ranks
(rank 0 included) for particle `i`. -/
theorem gather_and_sum_getD (n : ℕ) (sendbufs : List (List particle_t))
    (hlen : ∀ b ∈ sendbufs, b.length = n) (hP : 1 ≤ sendbufs.length) (i : ℕ) (hi : i < n) :
    ((gather_and_sum n sendbufs).getD i default).ax
        = ((sendbufs.getD 0 []).getD i default).ax
          + ∑ j in Finset.range sendbufs.length, ((sendbufs.getD j []).getD i default).ax
    ∧ ((gather_and_sum n sendbufs).getD i default).ay
        = ((sendbufs.getD 0 []).getD i default).ay
          + ∑ j in Finset.range sendbufs.length, ((sendbufs.getD j []).getD i default).ay := by
  have h0 : (sendbufs.getD 0 []).length = n := by
    cases sendbufs with
    | nil => simp at hP
    | cons b bs => exact hlen b (List.mem_cons_self _ _)
  unfold gather_and_sum reduce_forces
  rw [reduce_outer_getD n n _ _ _ (by omega) i, if_pos hi]
  simp only [MPI_Gather_getD n sendbufs hlen i _ hi, and_self]

/-- C1 fails on the code: rank 0 adds the gathered records, its own among
them, to its own `particles` array, which already holds its partial
accelerations. With one worker and two particles whose partial accelerations
are `(-12000, -16000)` and `(12000, 16000)`, rank 0 ends with
`(-24000, -32000)` for particle 0, twice the sum over the workers. -/
theorem gather_and_sum_counts_rank0_twice :
    ((gather_and_sum 2
        [[⟨0, 0, 0, 0, -12000, -16000⟩, ⟨3 / 1000, 4 / 1000, 0, 0, 12000, 16000⟩]]).getD
          0 default).ax = -24000
    ∧ ((gather_and_sum 2
        [[⟨0, 0, 0, 0, -12000, -16000⟩, ⟨3 / 1000, 4 / 1000, 0, 0, 12000, 16000⟩]]).getD
          0 default).ay = -32000
    ∧ ∑ j in Finset.range 1,
        (((([[⟨0, 0, 0, 0, -12000, -16000⟩, ⟨3 / 1000, 4 / 1000, 0, 0, 12000, 16000⟩]] :
            List (List particle_t))).getD j []).getD 0 default).ax = -12000
    ∧ ∑ j in Finset.range 1,
        (((([[⟨0, 0, 0, 0, -12000, -16000⟩, ⟨3 / 1000, 4 / 1000, 0, 0, 12000, 16000⟩]] :
            List (List particle_t))).getD j []).getD 0 default).ay = -16000 := by
  have h := gather_and_sum_getD 2
    [[⟨0, 0, 0, 0, -12000, -16000⟩, ⟨3 / 1000, 4 / 1000, 0, 0, 12000, 16000⟩]]
    (by simp) (by simp) 0 (by decide)
  refine ⟨?_, ?_, by simp, by simp⟩
  · rw [h.1]
    simp
    norm_num
  · rw [h.2]
    simp
    norm_num

/-! ### C5, C6, C7: `apply_force` -/

theorem min_r_sq_pos : 0 < min_r * min_r := by
  norm_num [min_r, cutoff]

theorem min_r_sq_lt_cutoff_sq : min_r * min_r < cutoff * cutoff := by
  norm_num [min_r, cutoff]

theorem separation2_nonneg (particle neighbor : particle_t) :
    0 ≤ separation2 particle neighbor := by
  unfold separation2
  exact add_nonneg (mul_self_nonneg _) (mul_self_nonneg _)

theorem separation2_comm (a b : particle_t) : separation2 a b = separation2 b a := by
  unfold separation2
  ring

/-- The particle returned by `apply_force` within the cutoff. -/
theorem apply_force_within (sqrt : ℚ → ℚ) (particle neighbor : particle_t) (d : Diagnostics)
    (h : ¬ separation2 particle neighbor > cutoff * cutoff) :
    (apply_force sqrt particle neighbor d).1
      = { particle with
          ax := particle.ax
                  + coef sqrt (separation2 particle neighbor) * (neighbor.x - particle.x)
          ay := particle.ay
                  + coef sqrt (separation2 particle neighbor) * (neighbor.y - particle.y) } := by
  unfold separation2 at h
  simp only [apply_force, separation2, if_neg h]

/-- C5: when the squared separation `r2 = dx*dx + dy*dy` of the pair exceeds
`cutoff*cutoff`, `apply_force` changes nothing: the particle (so its `ax` and
`ay`) and the diagnostics `dmin`, `davg`, `navg` come back as they were. -/
theorem apply_force_beyond_cutoff (sqrt : ℚ → ℚ) (particle neighbor : particle_t)
    (d : Diagnostics) (h : separation2 particle neighbor > cutoff * cutoff) :
    apply_force sqrt particle neighbor d = (particle, d)
    ∧ (apply_force sqrt particle neighbor d).1.ax = particle.ax
    ∧ (apply_force sqrt particle neighbor d).1.ay = particle.ay
    ∧ (apply_force sqrt particle neighbor d).2.dmin = d.dmin
    ∧ (apply_force sqrt particle neighbor d).2.davg = d.davg
    ∧ (apply_force sqrt particle neighbor d).2.navg = d.navg := by
  have e : apply_force sqrt particle neighbor d = (particle, d) := by
    unfold separation2 at h
    simp only [apply_force, if_pos h]
  rw [e]
  exact ⟨rfl, rfl, rfl, rfl, rfl, rfl⟩

/-- Witness for C5: two particles one unit apart. -/
theorem apply_force_beyond_cutoff_witness :
    separation2 ⟨0, 0, 0, 0, 1, 2⟩ ⟨1, 0, 0, 0, 0, 0⟩ > cutoff * cutoff
    ∧ apply_force Rat.sqrt ⟨0, 0, 0, 0, 1, 2⟩ ⟨1, 0, 0, 0, 0, 0⟩ ⟨1, 0, 0⟩
        = (⟨0, 0, 0, 0, 1, 2⟩, ⟨1, 0, 0⟩) :=
  have h : separation2 ⟨0, 0, 0, 0, 1, 2⟩ ⟨1, 0, 0, 0, 0, 0⟩ > cutoff * cutoff := by
    norm_num [separation2, cutoff]
  ⟨h, (apply_force_beyond_cutoff Rat.sqrt ⟨0, 0, 0, 0, 1, 2⟩ ⟨1, 0, 0, 0, 0, 0⟩ ⟨1, 0, 0⟩ h).1⟩

/-- C6: for a particle and a neighbor at identical coordinates (the particle
itself included) the squared separation is `0`, the divisors of `coef` are not
zero (`r2` is clamped to `min_r*min_r > 0`, `r` is its root, `mass = 0.01`),
the acceleration added is zero, and `apply_force` returns the particle and the
diagnostics unchanged. -/
theorem apply_force_coincident (sqrt : ℚ → ℚ) (particle neighbor : particle_t)
    (d : Diagnostics) (hx : neighbor.x = particle.x) (hy : neighbor.y = particle.y)
    (hs : 0 < sqrt (min_r * min_r)) :
    separation2 particle neighbor = 0
    ∧ clamped_r2 (separation2 particle neighbor) = min_r * min_r
    ∧ 0 < clamped_r2 (separation2 particle neighbor)
    ∧ clamped_r sqrt (separation2 particle neighbor) ≠ 0
    ∧ mass ≠ 0
    ∧ coef sqrt (separation2 particle neighbor) * (neighbor.x - particle.x) = 0
    ∧ coef sqrt (separation2 particle neighbor) * (neighbor.y - particle.y) = 0
    ∧ apply_force sqrt particle neighbor d = (particle, d) := by
  have h0 : separation2 particle neighbor = 0 := by
    simp [separation2, hx, hy]
  have hc : clamped_r2 (separation2 particle neighbor) = min_r * min_r := by
    rw [h0]
    exact max_eq_right min_r_sq_pos.le
  refine ⟨h0, hc, by rw [hc]; exact min_r_sq_pos, ?_, by norm_num [mass], by simp [hx],
    by simp [hy], ?_⟩
  · unfold clamped_r
    rw [hc]
    exact hs.ne'
  · simp [apply_force, hx, hy, cutoff]

/-- Witness for C6: a particle interacting with itself, with the rational square
root (exact on the square `min_r*min_r`). -/
theorem apply_force_coincident_witness :
    0 < Rat.sqrt (min_r * min_r)
    ∧ apply_force Rat.sqrt ⟨1 / 2, 1 / 3, 0, 0, 5, 7⟩ ⟨1 / 2, 1 / 3, 0, 0, 5, 7⟩ ⟨1, 0, 0⟩
        = (⟨1 / 2, 1 / 3, 0, 0, 5, 7⟩, ⟨1, 0, 0⟩) :=
  have hs : 0 < Rat.sqrt (min_r * min_r) := by
    rw [Rat.sqrt_eq]
    norm_num [min_r, cutoff]
  ⟨hs, (apply_force_coincident Rat.sqrt ⟨1 / 2, 1 / 3, 0, 0, 5, 7⟩ ⟨1 / 2, 1 / 3, 0, 0, 5, 7⟩
    ⟨1, 0, 0⟩ rfl rfl hs).2.2.2.2.2.2.2⟩

/-- Within the cutoff the clamped squared radius stays below `cutoff*cutoff`,
and equals it exactly at the cutoff. -/
theorem clamped_r2_bounds (r2 : ℚ) :
    0 < clamped_r2 r2 ∧ (r2 < cutoff * cutoff → clamped_r2 r2 < cutoff * cutoff)
      ∧ (r2 = cutoff * cutoff → clamped_r2 r2 = cutoff * cutoff) := by
  refine ⟨lt_of_lt_of_le min_r_sq_pos (le_max_right _ _), ?_, ?_⟩
  · intro h
    exact max_lt h min_r_sq_lt_cutoff_sq
  · intro h
    rw [h]
    exact max_eq_left min_r_sq_lt_cutoff_sq.le

/-- The sign of `coef` is the sign of `r - cutoff`, `r > 0` being the root that
`sqrt` returns for the clamped squared radius. -/
theorem coef_sign (sqrt : ℚ → ℚ) (r2 : ℚ) (hr : 0 < clamped_r sqrt r2) :
    (coef sqrt r2 < 0 ↔ clamped_r sqrt r2 < cutoff)
      ∧ (coef sqrt r2 = 0 ↔ clamped_r sqrt r2 = cutoff) := by
  obtain ⟨hpos, -, -⟩ := clamped_r2_bounds r2
  have hcut : (0 : ℚ) < cutoff := by norm_num [cutoff]
  have hmass : (0 : ℚ) < mass := by norm_num [mass]
  have hden : 0 < clamped_r sqrt r2 * clamped_r2 r2 * mass := by positivity
  have e : coef sqrt r2
      = (clamped_r sqrt r2 - cutoff) / (clamped_r sqrt r2 * clamped_r2 r2 * mass) := by
    unfold coef
    field_simp
  rw [e]
  constructor
  · rw [div_neg_iff]
    constructor
    · rintro (⟨-, h⟩ | ⟨h, -⟩)
      · exact absurd hden (not_lt.mpr h.le)
      · linarith
    · intro h
      exact Or.inr ⟨by linarith, hden⟩
  · rw [div_eq_zero_iff]
    constructor
    · rintro (h | h)
      · linarith
      · exact absurd h hden.ne'
    · intro h
      exact Or.inl (by linarith)

/-- With an exact root, the root is below the cutoff when the squared
separation is below `cutoff*cutoff`, and is the cutoff at the cutoff. -/
theorem clamped_r_exact (sqrt : ℚ → ℚ) (r2 : ℚ) (hs : IsSqrtAt sqrt (clamped_r2 r2)) :
    0 < clamped_r sqrt r2
      ∧ (r2 < cutoff * cutoff → clamped_r sqrt r2 < cutoff)
      ∧ (r2 = cutoff * cutoff → clamped_r sqrt r2 = cutoff) := by
  obtain ⟨hpos, hlt, heq⟩ := clamped_r2_bounds r2
  obtain ⟨hs0, hsq⟩ := hs
  have hcut : (0 : ℚ) < cutoff := by norm_num [cutoff]
  have hr : 0 < sqrt (clamped_r2 r2) := by
    rcases hs0.lt_or_eq with h | h
    · exact h
    · rw [← h] at hsq
      simp at hsq
      exact absurd hsq.symm hpos.ne'
  refine ⟨hr, ?_, ?_⟩
  · intro h
    have h1 := hlt h
    by_contra hcon
    have := mul_le_mul (not_lt.mp hcon) (not_lt.mp hcon) hcut.le hs0
    unfold clamped_r at this
    rw [hsq] at this
    exact absurd h1 (not_lt.mpr this)
  · intro h
    have h1 := heq h
    have h2 : sqrt (clamped_r2 r2) * sqrt (clamped_r2 r2) = cutoff * cutoff := by
      rw [hsq, h1]
    unfold clamped_r
    nlinarith

/-- C7, amended: in exact arithmetic, with `r > 0` the value that `sqrt` returns
for the clamped `r2`, for two particles `a`, `b` with zero accumulated
acceleration whose squared separation satisfies `0 < r2 ≤ cutoff*cutoff`:
`apply_force(a, b)` leaves `a` with the acceleration `c * (b.pos - a.pos)`,
`c = coef = (1 - cutoff/r)/r2/mass`, and `apply_force(b, a)` leaves `b` with
exactly the opposite acceleration; `c < 0` if and only if `r < cutoff`, and then
the acceleration is not zero; `c = 0` if and only if `r = cutoff`, and then the
acceleration added is zero; when the root is exact (`r*r` is the clamped `r2`),
`r < cutoff` holds whenever `r2 < cutoff*cutoff` and `r = cutoff` whenever
`r2 = cutoff*cutoff`. -/
theorem apply_force_repulsive (sqrt : ℚ → ℚ) (a b : particle_t) (d e : Diagnostics)
    (ha : a.ax = 0 ∧ a.ay = 0) (hb : b.ax = 0 ∧ b.ay = 0)
    (hpos : 0 < separation2 a b) (hle : separation2 a b ≤ cutoff * cutoff)
    (hr : 0 < clamped_r sqrt (separation2 a b)) :
    (apply_force sqrt a b d).1.ax = coef sqrt (separation2 a b) * (b.x - a.x)
    ∧ (apply_force sqrt a b d).1.ay = coef sqrt (separation2 a b) * (b.y - a.y)
    ∧ (apply_force sqrt b a e).1.ax = - (apply_force sqrt a b d).1.ax
    ∧ (apply_force sqrt b a e).1.ay = - (apply_force sqrt a b d).1.ay
    ∧ (coef sqrt (separation2 a b) < 0 ↔ clamped_r sqrt (separation2 a b) < cutoff)
    ∧ (coef sqrt (separation2 a b) = 0 ↔ clamped_r sqrt (separation2 a b) = cutoff)
    ∧ (clamped_r sqrt (separation2 a b) < cutoff →
        ((apply_force sqrt a b d).1.ax ≠ 0 ∨ (apply_force sqrt a b d).1.ay ≠ 0))
    ∧ (clamped_r sqrt (separation2 a b) = cutoff →
        (apply_force sqrt a b d).1.ax = 0 ∧ (apply_force sqrt a b d).1.ay = 0)
    ∧ (IsSqrtAt sqrt (clamped_r2 (separation2 a b)) →
        (separation2 a b < cutoff * cutoff → clamped_r sqrt (separation2 a b) < cutoff)
        ∧ (separation2 a b = cutoff * cutoff →
            clamped_r sqrt (separation2 a b) = cutoff)) := by
  have hab := apply_force_within sqrt a b d (not_lt.mpr hle)
  have hba := apply_force_within sqrt b a e (by rw [← separation2_comm]; exact not_lt.mpr hle)
  rw [← separation2_comm] at hba
  obtain ⟨hneg, hzero⟩ := coef_sign sqrt (separation2 a b) hr
  have hax : (apply_force sqrt a b d).1.ax = coef sqrt (separation2 a b) * (b.x - a.x) := by
    rw [hab]; simp [ha.1]
  have hay : (apply_force sqrt a b d).1.ay = coef sqrt (separation2 a b) * (b.y - a.y) := by
    rw [hab]; simp [ha.2]
  refine ⟨hax, hay, ?_, ?_, hneg, hzero, ?_, ?_, ?_⟩
  · rw [hax, hba]; simp only [hb.1]; ring
  · rw [hay, hba]; simp only [hb.2]; ring
  · intro hlt
    rw [hax, hay]
    by_contra hcon
    push_neg at hcon
    have hc : coef sqrt (separation2 a b) ≠ 0 := (hneg.mpr hlt).ne
    have hx : b.x - a.x = 0 := (mul_eq_zero.mp hcon.1).resolve_left hc
    have hy : b.y - a.y = 0 := (mul_eq_zero.mp hcon.2).resolve_left hc
    have : separation2 a b = 0 := by
      unfold separation2
      rw [hx, hy]
      ring
    exact hpos.ne' this
  · intro heq
    rw [hax, hay, hzero.mpr heq]
    simp
  · intro hs
    exact (clamped_r_exact sqrt (separation2 a b) hs).2

/-- Witness for amended C7: `a` at the origin and `b` at `(0.001, 0.001)`, whose
squared separation `2/10^6` is not a rational square, with the correctly
rounded root `fl_sqrt`: the root `6521908912666391/2^62` is positive and below
the cutoff, and `a` gets an acceleration `c * (b.pos - a.pos)` with `c < 0`. -/
theorem apply_force_repulsive_witness :
    clamped_r fl_sqrt (separation2 ⟨0, 0, 0, 0, 0, 0⟩ ⟨1 / 1000, 1 / 1000, 0, 0, 0, 0⟩)
        = 6521908912666391 / 2 ^ 62
    ∧ (apply_force fl_sqrt ⟨0, 0, 0, 0, 0, 0⟩ ⟨1 / 1000, 1 / 1000, 0, 0, 0, 0⟩ ⟨1, 0, 0⟩).1.ax
        = coef fl_sqrt (separation2 ⟨0, 0, 0, 0, 0, 0⟩ ⟨1 / 1000, 1 / 1000, 0, 0, 0, 0⟩)
            * (1 / 1000 - 0)
    ∧ coef fl_sqrt (separation2 ⟨0, 0, 0, 0, 0, 0⟩ ⟨1 / 1000, 1 / 1000, 0, 0, 0, 0⟩) < 0 := by
  have hsep : separation2 ⟨0, 0, 0, 0, 0, 0⟩ ⟨1 / 1000, 1 / 1000, 0, 0, 0, 0⟩
      = 2 / 10 ^ 6 := by
    norm_num [separation2]
  have hcl : clamped_r2 (2 / 10 ^ 6) = 2 / 10 ^ 6 := by
    norm_num [clamped_r2, min_r, cutoff]
  have hroot : clamped_r fl_sqrt (2 / 10 ^ 6) = 6521908912666391 / 2 ^ 62 := by
    have h := fl_sqrt_eq_down (2 / 10 ^ 6) (-19) 6521908912666391 (by norm_num)
      (by norm_num) (by norm_num) (by norm_num)
    unfold clamped_r
    rw [hcl, h]
    norm_num
  have hr : 0 < clamped_r fl_sqrt
      (separation2 ⟨0, 0, 0, 0, 0, 0⟩ ⟨1 / 1000, 1 / 1000, 0, 0, 0, 0⟩) := by
    rw [hsep, hroot]
    norm_num
  have h := apply_force_repulsive fl_sqrt ⟨0, 0, 0, 0, 0, 0⟩ ⟨1 / 1000, 1 / 1000, 0, 0, 0, 0⟩
    ⟨1, 0, 0⟩ ⟨1, 0, 0⟩ ⟨rfl, rfl⟩ ⟨rfl, rfl⟩ (by rw [hsep]; norm_num)
    (by rw [hsep]; norm_num [cutoff]) hr
  refine ⟨by rw [hsep, hroot], h.1, ?_⟩
  rw [h.2.2.2.2.1, hsep, hroot]
  norm_num [cutoff]

/-! ### C8: `move` -/

/-- A position inside the domain ends the wall loop at once. -/
theorem bounce_inside (size : ℚ) (fuel : ℕ) (x v : ℚ) (h : ¬ (x < 0 ∨ x > size)) :
    bounce size fuel x v = some (x, v) := by
  cases fuel with
  | zero => simp only [bounce, if_neg h]
  | succ f => simp only [bounce, if_neg h]

/-- A position outside the domain costs one iteration. -/
theorem bounce_outside (size : ℚ) (fuel : ℕ) (x v : ℚ) (h : x < 0 ∨ x > size) :
    bounce size (fuel + 1) x v = bounce size fuel (reflect size x) (-v) := by
  simp only [bounce, if_pos h]

/-- The wall loop from a position in `[-k*size, (k+1)*size]` stops after at most
`k` reflections, at the first iterate that lies in the domain. -/
theorem bounce_spec (size : ℚ) (hs : 0 < size) :
    ∀ (k : ℕ) (x v : ℚ), -((k : ℚ) * size) ≤ x → x ≤ ((k : ℚ) + 1) * size →
      ∃ j : ℕ, j ≤ k
        ∧ (∀ fuel, k ≤ fuel →
            bounce size fuel x v = some ((reflect size)^[j] x, (-1) ^ j * v))
        ∧ 0 ≤ (reflect size)^[j] x ∧ (reflect size)^[j] x ≤ size
        ∧ ∀ i, i < j → ((reflect size)^[i] x < 0 ∨ (reflect size)^[i] x > size) := by
  intro k
  induction k with
  | zero =>
    intro x v h1 h2
    simp only [Nat.cast_zero, zero_mul, neg_zero, zero_add, one_mul] at h1 h2
    refine ⟨0, le_refl _, ?_, by simpa using h1, by simpa using h2, by simp⟩
    intro fuel _
    simp only [Function.iterate_zero, id_eq, pow_zero, one_mul]
    exact bounce_inside size fuel x v (by rintro (h | h) <;> linarith)
  | succ k ih =>
    intro x v h1 h2
    push_cast at h1 h2
    by_cases hout : x < 0 ∨ x > size
    · have hr1 : -((k : ℚ) * size) ≤ reflect size x := by
        unfold reflect
        split_ifs with hx
        · have : 0 ≤ (k : ℚ) * size := mul_nonneg (Nat.cast_nonneg k) hs.le
          linarith
        · linarith
      have hr2 : reflect size x ≤ ((k : ℚ) + 1) * size := by
        unfold reflect
        split_ifs with hx
        · linarith
        · have hx' : x > size := hout.resolve_left hx
          have : 0 ≤ (k : ℚ) * size := mul_nonneg (Nat.cast_nonneg k) hs.le
          linarith
      obtain ⟨j, hj, hb, h0, hsz, hprev⟩ := ih (reflect size x) (-v) hr1 hr2
      refine ⟨j + 1, by omega, ?_, by simpa [Function.iterate_succ_apply] using h0,
        by simpa [Function.iterate_succ_apply] using hsz, ?_⟩
      · intro fuel hf
        obtain ⟨f, rfl⟩ : ∃ f, fuel = f + 1 := ⟨fuel - 1, by omega⟩
        rw [bounce_outside size f x v hout, hb f (by omega), Function.iterate_succ_apply]
        congr 2
        ring
      · intro i hi
        cases i with
        | zero => simpa using hout
        | succ i =>
          rw [Function.iterate_succ_apply]
          exact hprev i (by omega)
    · refine ⟨0, Nat.zero_le _, ?_, ?_, ?_, by simp⟩
      · intro fuel _
        simp only [Function.iterate_zero, id_eq, pow_zero, one_mul]
        exact bounce_inside size fuel x v hout
      · simp only [Function.iterate_zero, id_eq]
        by_contra hcon
        exact hout (Or.inl (not_le.mp hcon))
      · simp only [Function.iterate_zero, id_eq]
        by_contra hcon
        exact hout (Or.inr (not_le.mp hcon))

/-- Every position is within some number of domain widths of the domain. -/
theorem exists_widths (size : ℚ) (hs : 0 < size) (x : ℚ) :
    ∃ k : ℕ, -((k : ℚ) * size) ≤ x ∧ x ≤ ((k : ℚ) + 1) * size := by
  refine ⟨⌈|x| / size⌉₊, ?_, ?_⟩
  · have h := Nat.le_ceil (|x| / size)
    rw [div_le_iff₀ hs] at h
    have := neg_abs_le x
    linarith
  · have h := Nat.le_ceil (|x| / size)
    rw [div_le_iff₀ hs] at h
    have := le_abs_self x
    linarith

/-- C8, amended: in exact arithmetic (coordinates taken as exact reals), for
every domain size `> 0` and every particle state, `move` returns
(with any fuel above some bound) a particle with `0 ≤ x ≤ size` and
`0 ≤ y ≤ size`; its position is the integrated position reflected `kx` (`ky`)
times, each reflection before the last state being one of a position outside
the domain, and its velocity is the integrated velocity negated as many times;
an integrated position `x = -0.3*size` ends at `x = 0.3*size` with the
velocity negated once. -/
theorem move_reflects_into_domain (size : ℚ) (hs : 0 < size) (p : particle_t) :
    ∃ (fuel : ℕ) (q : particle_t) (kx ky : ℕ),
      (∀ f, fuel ≤ f → move size f p = some q)
      ∧ (0 ≤ q.x ∧ q.x ≤ size) ∧ (0 ≤ q.y ∧ q.y ≤ size)
      ∧ q.x = (reflect size)^[kx] (p.x + (p.vx + p.ax * dt) * dt)
      ∧ q.vx = (-1) ^ kx * (p.vx + p.ax * dt)
      ∧ (∀ i, i < kx →
          ((reflect size)^[i] (p.x + (p.vx + p.ax * dt) * dt) < 0
            ∨ (reflect size)^[i] (p.x + (p.vx + p.ax * dt) * dt) > size))
      ∧ q.y = (reflect size)^[ky] (p.y + (p.vy + p.ay * dt) * dt)
      ∧ q.vy = (-1) ^ ky * (p.vy + p.ay * dt)
      ∧ (∀ i, i < ky →
          ((reflect size)^[i] (p.y + (p.vy + p.ay * dt) * dt) < 0
            ∨ (reflect size)^[i] (p.y + (p.vy + p.ay * dt) * dt) > size))
      ∧ q.ax = p.ax ∧ q.ay = p.ay
      ∧ (p.x + (p.vx + p.ax * dt) * dt = -(3 / 10) * size →
          q.x = 3 / 10 * size ∧ q.vx = -(p.vx + p.ax * dt)) := by
  obtain ⟨k1, hk1a, hk1b⟩ := exists_widths size hs (p.x + (p.vx + p.ax * dt) * dt)
  obtain ⟨k2, hk2a, hk2b⟩ := exists_widths size hs (p.y + (p.vy + p.ay * dt) * dt)
  obtain ⟨kx, -, hbx, hx0, hx1, hxprev⟩ :=
    bounce_spec size hs k1 (p.x + (p.vx + p.ax * dt) * dt) (p.vx + p.ax * dt) hk1a hk1b
  obtain ⟨ky, -, hby, hy0, hy1, hyprev⟩ :=
    bounce_spec size hs k2 (p.y + (p.vy + p.ay * dt) * dt) (p.vy + p.ay * dt) hk2a hk2b
  refine ⟨max k1 k2,
    { p with
      x := (reflect size)^[kx] (p.x + (p.vx + p.ax * dt) * dt)
      y := (reflect size)^[ky] (p.y + (p.vy + p.ay * dt) * dt)
      vx := (-1) ^ kx * (p.vx + p.ax * dt)
      vy := (-1) ^ ky * (p.vy + p.ay * dt) }, kx, ky, ?_, ⟨hx0, hx1⟩, ⟨hy0, hy1⟩, rfl, rfl,
    hxprev, rfl, rfl, hyprev, rfl, rfl, ?_⟩
  · intro f hf
    simp only [move, hbx f (le_trans (le_max_left _ _) hf),
      hby f (le_trans (le_max_right _ _) hf)]
  · intro hx
    have hneg : -(3 / 10) * size < 0 := by linarith
    have hin : ¬ (reflect size (-(3 / 10) * size) < 0 ∨ reflect size (-(3 / 10) * size) > size) := by
      unfold reflect
      rw [if_pos hneg]
      rintro (h | h) <;> linarith
    have hkx : kx = 1 := by
      rcases Nat.lt_trichotomy kx 1 with h | h | h
      · have h0 : kx = 0 := by omega
        subst h0
        simp only [Function.iterate_zero, id_eq] at hx0
        rw [hx] at hx0
        linarith
      · exact h
      · exfalso
        have := hxprev 1 h
        rw [hx] at this
        exact hin (by simpa using this)
    subst hkx
    simp only [Function.iterate_one, pow_one, hx]
    constructor
    · unfold reflect
      rw [if_pos hneg]
      ring
    · ring

/-- Witness for amended C8: the unit domain and a particle whose integrated position
overshoots it by more than seven widths. -/
theorem move_reflects_into_domain_witness :
    (0 : ℚ) < 1 ∧ move 1 8 ⟨15 / 2, 1 / 2, 0, 0, 0, 0⟩ = some ⟨1 / 2, 1 / 2, 0, 0, 0, 0⟩
    ∧ ∃ (fuel : ℕ) (q : particle_t),
        (∀ f, fuel ≤ f → move 1 f ⟨15 / 2, 1 / 2, 0, 0, 0, 0⟩ = some q)
        ∧ (0 ≤ q.x ∧ q.x ≤ 1) ∧ (0 ≤ q.y ∧ q.y ≤ 1) := by
  refine ⟨by norm_num, ?_, ?_⟩
  · norm_num [move, bounce, reflect, dt]
  · obtain ⟨fuel, q, kx, ky, h1, h2, h3, -⟩ :=
      move_reflects_into_domain 1 (by norm_num) ⟨15 / 2, 1 / 2, 0, 0, 0, 0⟩
    exact ⟨fuel, q, h1, h2, h3⟩

/-! ### The quadtree: `insert` unfolded -/

namespace QuadTreeNode

theorem insert_zero (t : QuadTreeNode) (p : particle_t) : insert 0 t p = none := by
  cases t <;> rfl

theorem insert_NULL (fuel : ℕ) (p : particle_t) : insert fuel NULL p = none := by
  cases fuel <;> rfl

/-- An empty external node: the particle is stored, nothing else changes. -/
theorem insert_empty (fuel : ℕ) (x y w h : ℚ) (NW NE SW SE : QuadTreeNode) (a b c d : ℚ)
    (p : particle_t) :
    insert (fuel + 1) (node x y w h true none NW NE SW SE a b c d) p
      = some (node x y w h true (some p) NW NE SW SE a b c d) := by
  simp only [insert, if_true]

/-- An occupied external node: four new children, the node becomes internal,
the stored particle and then the new one are inserted again. -/
theorem insert_occupied (fuel : ℕ) (x y w h : ℚ) (q : particle_t)
    (NW NE SW SE : QuadTreeNode) (a b c d : ℚ) (p : particle_t) :
    insert (fuel + 1) (node x y w h true (some q) NW NE SW SE a b c d) p
      = (insert fuel
          (node x y w h false (some q) (new x y (w / 2) (h / 2))
            (new (x + w / 2) y (w / 2) (h / 2)) (new x (y + h / 2) (w / 2) (h / 2))
            (new (x + w / 2) (y + h / 2) (w / 2) (h / 2)) a b c d) q).bind
          (fun this1 => insert fuel this1 p) := by
  simp only [insert, if_true]
  cases insert fuel
      (node x y w h false (some q) (new x y (w / 2) (h / 2))
        (new (x + w / 2) y (w / 2) (h / 2)) (new x (y + h / 2) (w / 2) (h / 2))
        (new (x + w / 2) (y + h / 2) (w / 2) (h / 2)) a b c d) q <;> rfl

/-- An internal node: the particle goes to the child that the quadrant rule
names, and only that child pointer is replaced. -/
theorem insert_internal (fuel : ℕ) (x y w h : ℚ) (q : Option particle_t)
    (NW NE SW SE : QuadTreeNode) (a b c d : ℚ) (p : particle_t) :
    insert (fuel + 1) (node x y w h false q NW NE SW SE a b c d) p
      = (insert fuel
          ((node x y w h false q NW NE SW SE a b c d).child
            (quadrantOf (x + w / 2) (y + h / 2) p.x p.y)) p).map
          ((node x y w h false q NW NE SW SE a b c d).setChild
            (quadrantOf (x + w / 2) (y + h / 2) p.x p.y)) := by
  by_cases hx : p.x < x + w / 2 <;> by_cases hy : p.y < y + h / 2 <;>
    simp [insert, quadrantOf, hx, hy, child, setChild, not_le.mpr, not_lt.mp] <;> rfl

end QuadTreeNode

namespace QuadTreeNode

/-- More fuel does not change a result. -/
theorem insert_mono_succ : ∀ (fuel : ℕ) (t : QuadTreeNode) (p : particle_t) (r : QuadTreeNode),
    insert fuel t p = some r → insert (fuel + 1) t p = some r := by
  intro fuel
  induction fuel with
  | zero =>
    intro t p r h
    rw [insert_zero] at h
    exact absurd h (by simp)
  | succ f ih =>
    intro t p r h
    cases t with
    | NULL =>
      rw [insert_NULL] at h
      exact absurd h (by simp)
    | node x y w h' e q NW NE SW SE a b c d =>
      cases e with
      | true =>
        cases q with
        | none =>
          rw [insert_empty] at h ⊢
          exact h
        | some q =>
          rw [insert_occupied] at h ⊢
          rw [Option.bind_eq_some] at h ⊢
          obtain ⟨t1, h1, h2⟩ := h
          exact ⟨t1, ih _ _ _ h1, ih _ _ _ h2⟩
      | false =>
        rw [insert_internal] at h ⊢
        rw [Option.map_eq_some'] at h ⊢
        obtain ⟨c', h1, h2⟩ := h
        exact ⟨c', ih _ _ _ h1, h2⟩

theorem insert_mono {fuel fuel' : ℕ} {t : QuadTreeNode} {p : particle_t} {r : QuadTreeNode}
    (h : insert fuel t p = some r) (hle : fuel ≤ fuel') : insert fuel' t p = some r := by
  induction hle with
  | refl => exact h
  | step _ ih => exact insert_mono_succ _ _ _ _ ih

theorem region_new (x y w h : ℚ) : region (new x y w h) = ⟨x, y, w, h⟩ := rfl

theorem leaves_new (x y w h : ℚ) : leaves (new x y w h) = [] := rfl

theorem region_setChild (x y w h : ℚ) (e : Bool) (q : Option particle_t)
    (NW NE SW SE : QuadTreeNode) (a b c d : ℚ) (k : Quadrant) (t : QuadTreeNode) :
    region ((node x y w h e q NW NE SW SE a b c d).setChild k t) = ⟨x, y, w, h⟩ := by
  cases k <;> rfl

theorem isExternal_setChild (x y w h : ℚ) (e : Bool) (q : Option particle_t)
    (NW NE SW SE : QuadTreeNode) (a b c d : ℚ) (k : Quadrant) (t : QuadTreeNode) :
    isExternal ((node x y w h e q NW NE SW SE a b c d).setChild k t) = e := by
  cases k <;> rfl

theorem child_setChild (x y w h : ℚ) (e : Bool) (q : Option particle_t)
    (NW NE SW SE : QuadTreeNode) (a b c d : ℚ) (k j : Quadrant) (t : QuadTreeNode) :
    ((node x y w h e q NW NE SW SE a b c d).setChild k t).child j
      = if j = k then t else (node x y w h e q NW NE SW SE a b c d).child j := by
  cases k <;> cases j <;> simp [setChild, child]

/-- What `WellFormed` says of an internal node, child by child. -/
theorem wellFormed_internal (G : ℚ → ℚ → Prop) (x y w h : ℚ) (q : Option particle_t)
    (NW NE SW SE : QuadTreeNode) (a b c d : ℚ) :
    WellFormed G (node x y w h false q NW NE SW SE a b c d)
      ↔ ∀ k : Quadrant,
          WellFormed G ((node x y w h false q NW NE SW SE a b c d).child k)
          ∧ region ((node x y w h false q NW NE SW SE a b c d).child k)
              = (Region.mk x y w h).quadrant k
          ∧ ∀ r ∈ leaves ((node x y w h false q NW NE SW SE a b c d).child k),
              quadrantOf (x + w / 2) (y + h / 2) r.x r.y = k := by
  constructor
  · intro hw k
    simp only [WellFormed] at hw
    cases k
    · exact hw.1
    · exact hw.2.1
    · exact hw.2.2.1
    · exact hw.2.2.2
  · intro hk
    simp only [WellFormed]
    exact ⟨hk Quadrant.NW, hk Quadrant.NE, hk Quadrant.SW, hk Quadrant.SE⟩

/-- Replacing the leaves of one child by a permutation of them with one more
particle does the same to the leaves of the node. -/
theorem leaves_setChild_perm (x y w h : ℚ) (q : Option particle_t)
    (NW NE SW SE : QuadTreeNode) (a b c d : ℚ) (k : Quadrant) (t : QuadTreeNode)
    (p : particle_t)
    (hp : (leaves t).Perm
      (p :: leaves ((node x y w h false q NW NE SW SE a b c d).child k))) :
    (leaves ((node x y w h false q NW NE SW SE a b c d).setChild k t)).Perm
      (p :: leaves (node x y w h false q NW NE SW SE a b c d)) := by
  cases k <;> simp only [setChild, child, leaves] at hp ⊢
  · have := ((hp.append_right (leaves NE)).append_right (leaves SW)).append_right (leaves SE)
    simpa using this
  · have h1 : (leaves NW ++ leaves t).Perm (p :: (leaves NW ++ leaves NE)) :=
      ((List.Perm.append_left (leaves NW) hp).trans List.perm_middle)
    have := (h1.append_right (leaves SW)).append_right (leaves SE)
    simpa using this
  · have h1 : (leaves NW ++ leaves NE ++ leaves t).Perm
        (p :: (leaves NW ++ leaves NE ++ leaves SW)) :=
      ((List.Perm.append_left (leaves NW ++ leaves NE) hp).trans List.perm_middle)
    have := h1.append_right (leaves SE)
    simpa using this
  · have h1 : (leaves NW ++ leaves NE ++ leaves SW ++ leaves t).Perm
        (p :: (leaves NW ++ leaves NE ++ leaves SW ++ leaves SE)) :=
      ((List.Perm.append_left (leaves NW ++ leaves NE ++ leaves SW) hp).trans List.perm_middle)
    simpa using h1

end QuadTreeNode

/-! ### The quadtree: geometry of the quadrants -/

theorem Region.quadrant_width (R : Region) (k : Quadrant) :
    (R.quadrant k).width = R.width / 2 ∧ (R.quadrant k).height = R.height / 2 := by
  cases k <;> exact ⟨rfl, rfl⟩

theorem quadrantOf_NW (xmid ymid a b : ℚ) :
    quadrantOf xmid ymid a b = Quadrant.NW ↔ (a < xmid ∧ b < ymid) := by
  by_cases hx : a < xmid <;> by_cases hy : b < ymid <;>
    simp [quadrantOf, hx, hy, not_le.mpr, not_lt.mp]

theorem quadrantOf_NE (xmid ymid a b : ℚ) :
    quadrantOf xmid ymid a b = Quadrant.NE ↔ (xmid ≤ a ∧ b < ymid) := by
  by_cases hx : a < xmid <;> by_cases hy : b < ymid <;>
    simp [quadrantOf, hx, hy, not_le.mpr, not_lt.mp]

theorem quadrantOf_SW (xmid ymid a b : ℚ) :
    quadrantOf xmid ymid a b = Quadrant.SW ↔ (a < xmid ∧ ymid ≤ b) := by
  by_cases hx : a < xmid <;> by_cases hy : b < ymid <;>
    simp [quadrantOf, hx, hy, not_le.mpr, not_lt.mp]

theorem quadrantOf_SE (xmid ymid a b : ℚ) :
    quadrantOf xmid ymid a b = Quadrant.SE ↔ (xmid ≤ a ∧ ymid ≤ b) := by
  by_cases hx : a < xmid <;> by_cases hy : b < ymid <;>
    simp [quadrantOf, hx, hy, not_le.mpr, not_lt.mp]

/-- The half-open cells of the four quadrants tile the half-open cell of the
region: a point is in the cell of quadrant `k` exactly when it is in the cell of
the region and the quadrant rule sends it to `k`. -/
theorem Region.covers_quadrant_iff (R : Region) (a b : ℚ) (k : Quadrant) :
    (R.quadrant k).covers a b
      ↔ (R.covers a b ∧ quadrantOf (R.x + R.width / 2) (R.y + R.height / 2) a b = k) := by
  cases k
  · rw [quadrantOf_NW]
    simp only [Region.quadrant, Region.covers]
    constructor
    · rintro ⟨h1, h2, h3, h4⟩
      refine ⟨⟨?_, ?_, ?_, ?_⟩, ?_, ?_⟩ <;> linarith
    · rintro ⟨⟨h1, h2, h3, h4⟩, h5, h6⟩
      refine ⟨?_, ?_, ?_, ?_⟩ <;> linarith
  · rw [quadrantOf_NE]
    simp only [Region.quadrant, Region.covers]
    constructor
    · rintro ⟨h1, h2, h3, h4⟩
      refine ⟨⟨?_, ?_, ?_, ?_⟩, ?_, ?_⟩ <;> linarith
    · rintro ⟨⟨h1, h2, h3, h4⟩, h5, h6⟩
      refine ⟨?_, ?_, ?_, ?_⟩ <;> linarith
  · rw [quadrantOf_SW]
    simp only [Region.quadrant, Region.covers]
    constructor
    · rintro ⟨h1, h2, h3, h4⟩
      refine ⟨⟨?_, ?_, ?_, ?_⟩, ?_, ?_⟩ <;> linarith
    · rintro ⟨⟨h1, h2, h3, h4⟩, h5, h6⟩
      refine ⟨?_, ?_, ?_, ?_⟩ <;> linarith
  · rw [quadrantOf_SE]
    simp only [Region.quadrant, Region.covers]
    constructor
    · rintro ⟨h1, h2, h3, h4⟩
      refine ⟨⟨?_, ?_, ?_, ?_⟩, ?_, ?_⟩ <;> linarith
    · rintro ⟨⟨h1, h2, h3, h4⟩, h5, h6⟩
      refine ⟨?_, ?_, ?_, ?_⟩ <;> linarith

/-- A point of the region lies in the quadrant that the rule sends it to. -/
theorem Region.contains_quadrant (R : Region) (a b : ℚ) (h : R.contains a b) :
    (R.quadrant (quadrantOf (R.x + R.width / 2) (R.y + R.height / 2) a b)).contains a b := by
  obtain ⟨h1, h2, h3, h4⟩ := h
  cases hk : quadrantOf (R.x + R.width / 2) (R.y + R.height / 2) a b
  · obtain ⟨h5, h6⟩ := (quadrantOf_NW _ _ _ _).mp hk
    simp only [Region.quadrant, Region.contains]
    refine ⟨?_, ?_, ?_, ?_⟩ <;> linarith
  · obtain ⟨h5, h6⟩ := (quadrantOf_NE _ _ _ _).mp hk
    simp only [Region.quadrant, Region.contains]
    refine ⟨?_, ?_, ?_, ?_⟩ <;> linarith
  · obtain ⟨h5, h6⟩ := (quadrantOf_SW _ _ _ _).mp hk
    simp only [Region.quadrant, Region.contains]
    refine ⟨?_, ?_, ?_, ?_⟩ <;> linarith
  · obtain ⟨h5, h6⟩ := (quadrantOf_SE _ _ _ _).mp hk
    simp only [Region.quadrant, Region.contains]
    refine ⟨?_, ?_, ?_, ?_⟩ <;> linarith

theorem Region.inside_quadrant (G : ℚ → ℚ → Prop) (R : Region) (a b : ℚ)
    (h : R.Inside G a b) :
    (R.quadrant (quadrantOf (R.x + R.width / 2) (R.y + R.height / 2) a b)).Inside G a b :=
  ⟨R.contains_quadrant a b h.1, fun g => (R.covers_quadrant_iff a b _).mpr ⟨h.2 g, rfl⟩⟩

/-- Two points of a region are no further apart than its width and height. -/
theorem Region.contains_dist (R : Region) (a b a' b' : ℚ) (h : R.contains a b)
    (h' : R.contains a' b') : |a - a'| ≤ R.width ∧ |b - b'| ≤ R.height := by
  obtain ⟨h1, h2, h3, h4⟩ := h
  obtain ⟨h1', h2', h3', h4'⟩ := h'
  constructor <;> rw [abs_le] <;> constructor <;> linarith

/-! ### The quadtree: one step of `insert` at an internal node -/

namespace QuadTreeNode

theorem insert_of_internal (fuel : ℕ) (t : QuadTreeNode) (hi : isInternal t = true)
    (p : particle_t) :
    insert (fuel + 1) t p
      = (insert fuel (t.child (t.route p.x p.y)) p).map (t.setChild (t.route p.x p.y)) := by
  cases t with
  | NULL => simp [isInternal] at hi
  | node x y w h e q NW NE SW SE a b c d =>
    cases e with
    | true => simp [isInternal] at hi
    | false => exact insert_internal fuel x y w h q NW NE SW SE a b c d p

theorem wellFormed_of_internal (G : ℚ → ℚ → Prop) (t : QuadTreeNode)
    (hi : isInternal t = true) :
    WellFormed G t
      ↔ ∀ k : Quadrant, WellFormed G (t.child k) ∧ region (t.child k) = (region t).quadrant k
          ∧ ∀ r ∈ leaves (t.child k), t.route r.x r.y = k := by
  cases t with
  | NULL => simp [isInternal] at hi
  | node x y w h e q NW NE SW SE a b c d =>
    cases e with
    | true => simp [isInternal] at hi
    | false => exact wellFormed_internal G x y w h q NW NE SW SE a b c d

theorem setChild_props (t : QuadTreeNode) (hi : isInternal t = true) (k : Quadrant)
    (c : QuadTreeNode) :
    isInternal (t.setChild k c) = true ∧ region (t.setChild k c) = region t
      ∧ ∀ j, (t.setChild k c).child j = if j = k then c else t.child j := by
  cases t with
  | NULL => simp [isInternal] at hi
  | node x y w h e q NW NE SW SE a b c' d =>
    cases e with
    | true => simp [isInternal] at hi
    | false =>
      refine ⟨?_, ?_, fun j => child_setChild x y w h false q NW NE SW SE a b c' d k j c⟩
      · cases k <;> rfl
      · cases k <;> rfl

theorem leaves_setChild (t : QuadTreeNode) (hi : isInternal t = true) (k : Quadrant)
    (c : QuadTreeNode) (p : particle_t) (hp : (leaves c).Perm (p :: leaves (t.child k))) :
    (leaves (t.setChild k c)).Perm (p :: leaves t) := by
  cases t with
  | NULL => simp [isInternal] at hi
  | node x y w h e q NW NE SW SE a b c' d =>
    cases e with
    | true => simp [isInternal] at hi
    | false => exact leaves_setChild_perm x y w h q NW NE SW SE a b c' d k c p hp

theorem mem_leaves_of_child (t : QuadTreeNode) (hi : isInternal t = true) (k : Quadrant)
    (r : particle_t) (hr : r ∈ leaves (t.child k)) : r ∈ leaves t := by
  cases t with
  | NULL => simp [isInternal] at hi
  | node x y w h e q NW NE SW SE a b c' d =>
    cases e with
    | true => simp [isInternal] at hi
    | false =>
      cases k <;> simp only [child] at hr <;> simp [leaves, hr]

theorem mem_leaves_internal (t : QuadTreeNode) (hi : isInternal t = true) (r : particle_t)
    (hr : r ∈ leaves t) : ∃ k, r ∈ leaves (t.child k) := by
  cases t with
  | NULL => simp [isInternal] at hi
  | node x y w h e q NW NE SW SE a b c' d =>
    cases e with
    | true => simp [isInternal] at hi
    | false =>
      simp only [leaves, List.mem_append] at hr
      rcases hr with ((h | h) | h) | h
      · exact ⟨Quadrant.NW, h⟩
      · exact ⟨Quadrant.NE, h⟩
      · exact ⟨Quadrant.SW, h⟩
      · exact ⟨Quadrant.SE, h⟩

/-- One step of `insert` at a well-formed internal node, given the outcome of
the recursive call on the child that the quadrant rule names. -/
theorem insert_step (G : ℚ → ℚ → Prop) (t : QuadTreeNode) (hi : isInternal t = true)
    (hw : WellFormed G t) (p : particle_t) (fuel : ℕ) (c : QuadTreeNode)
    (hc : insert fuel (t.child (t.route p.x p.y)) p = some c) (hwc : WellFormed G c)
    (hrc : region c = region (t.child (t.route p.x p.y)))
    (hlc : (leaves c).Perm (p :: leaves (t.child (t.route p.x p.y)))) :
    insert (fuel + 1) t p = some (t.setChild (t.route p.x p.y) c)
      ∧ WellFormed G (t.setChild (t.route p.x p.y) c)
      ∧ isInternal (t.setChild (t.route p.x p.y) c) = true
      ∧ region (t.setChild (t.route p.x p.y) c) = region t
      ∧ (leaves (t.setChild (t.route p.x p.y) c)).Perm (p :: leaves t) := by
  generalize hk : t.route p.x p.y = k at hc hrc hlc ⊢
  obtain ⟨hi', hr', hch⟩ := setChild_props t hi k c
  have hwt := (wellFormed_of_internal G t hi).mp hw
  refine ⟨?_, ?_, hi', hr', leaves_setChild t hi _ c p hlc⟩
  · rw [insert_of_internal fuel t hi p, hk, hc]
    rfl
  · rw [wellFormed_of_internal G _ hi']
    intro j
    rw [hch j]
    have hroute : ∀ a b, (t.setChild k c).route a b = t.route a b := by
      intro a b
      unfold route
      rw [hr']
    by_cases hj : j = k
    · rw [if_pos hj, hr']
      refine ⟨hwc, ?_, ?_⟩
      · rw [hrc, (hwt _).2.1, hj]
      · intro r hr
        rw [hroute, hj]
        rcases (List.mem_cons.mp (hlc.mem_iff.mp hr)) with h | h
        · rw [h, hk]
        · exact (hwt _).2.2 r h
    · rw [if_neg hj, hr']
      refine ⟨(hwt j).1, (hwt j).2.1, ?_⟩
      intro r hr
      rw [hroute]
      exact (hwt j).2.2 r hr

end QuadTreeNode

/-! ### The quadtree: subdivision separates two distinct points -/

namespace QuadTreeNode

/-- The children that lines 62-65 create are new nodes on the four quadrants. -/
theorem child_subdivided (x y w h : ℚ) (q : Option particle_t) (a b c d : ℚ) (k : Quadrant) :
    (node x y w h false q (new x y (w / 2) (h / 2)) (new (x + w / 2) y (w / 2) (h / 2))
        (new x (y + h / 2) (w / 2) (h / 2)) (new (x + w / 2) (y + h / 2) (w / 2) (h / 2))
        a b c d).child k
      = new ((Region.mk x y w h).quadrant k).x ((Region.mk x y w h).quadrant k).y
          ((Region.mk x y w h).quadrant k).width ((Region.mk x y w h).quadrant k).height := by
  cases k <;> rfl

theorem wellFormed_new (G : ℚ → ℚ → Prop) (x y w h : ℚ) : WellFormed G (new x y w h) := by
  simp [new, initial_p, WellFormed]

/-- A node just subdivided, before the particles are inserted again, is
well formed. -/
theorem wellFormed_subdivided (G : ℚ → ℚ → Prop) (x y w h : ℚ) (q : Option particle_t)
    (a b c d : ℚ) :
    WellFormed G
      (node x y w h false q (new x y (w / 2) (h / 2)) (new (x + w / 2) y (w / 2) (h / 2))
        (new x (y + h / 2) (w / 2) (h / 2)) (new (x + w / 2) (y + h / 2) (w / 2) (h / 2))
        a b c d) := by
  rw [wellFormed_internal]
  intro k
  rw [child_subdivided]
  refine ⟨wellFormed_new G _ _ _ _, rfl, ?_⟩
  intro r hr
  simp [leaves_new] at hr

/-- Storing a particle in a new node. -/
theorem insert_new (G : ℚ → ℚ → Prop) (R : Region) (p : particle_t)
    (hin : R.Inside G p.x p.y) :
    ∃ c, insert 1 (new R.x R.y R.width R.height) p = some c ∧ WellFormed G c
      ∧ region c = R ∧ leaves c = [p] ∧ isExternal c = true ∧ particle c = some p
      ∧ ∀ k, c.child k = NULL := by
  refine ⟨node R.x R.y R.width R.height true (some p) NULL NULL NULL NULL
    (R.width / 2) (R.height / 2) (R.x + R.width / 2) (R.y + R.height / 2), ?_, ?_, rfl, rfl,
    rfl, rfl, ?_⟩
  · exact insert_empty 0 _ _ _ _ _ _ _ _ _ _ _ _ p
  · simp only [WellFormed, and_self, true_and]
    intro q hq
    cases hq
    exact hin
  · intro k
    cases k <;> rfl

/-- The invariant of the subdivision: when the region is too small for the two
points to share a cell `n` levels further down, inserting the second particle
into the external node that holds the first one succeeds. -/
theorem insert_split (G : ℚ → ℚ → Prop) :
    ∀ (n : ℕ) (x y w h : ℚ) (q p : particle_t) (NW NE SW SE : QuadTreeNode) (a b c d : ℚ),
      (Region.mk x y w h).Inside G q.x q.y → (Region.mk x y w h).Inside G p.x p.y →
      (w < 2 ^ n * |p.x - q.x| ∨ h < 2 ^ n * |p.y - q.y|) →
      ∃ (fuel : ℕ) (t : QuadTreeNode),
        insert fuel (node x y w h true (some q) NW NE SW SE a b c d) p = some t
        ∧ WellFormed G t ∧ isInternal t = true ∧ region t = ⟨x, y, w, h⟩
        ∧ (leaves t).Perm [p, q] := by
  intro n
  induction n with
  | zero =>
    intro x y w h q p NW NE SW SE a b c d hq hp hsep
    exfalso
    have hd := Region.contains_dist _ _ _ _ _ hp.1 hq.1
    simp only [pow_zero, one_mul] at hsep
    rcases hsep with h1 | h1
    · exact absurd hd.1 (not_le.mpr h1)
    · exact absurd hd.2 (not_le.mpr h1)
  | succ n ih =>
    intro x y w h q p NW NE SW SE a b c d hq hp hsep
    -- the node after lines 62-68
    have hw0 := wellFormed_subdivided G x y w h (some q) a b c d
    generalize ht0 : node x y w h false (some q) (new x y (w / 2) (h / 2))
      (new (x + w / 2) y (w / 2) (h / 2)) (new x (y + h / 2) (w / 2) (h / 2))
      (new (x + w / 2) (y + h / 2) (w / 2) (h / 2)) a b c d = t0 at hw0
    have hi0 : isInternal t0 = true := by rw [← ht0]; rfl
    have hr0 : region t0 = ⟨x, y, w, h⟩ := by rw [← ht0]; rfl
    have hl0 : leaves t0 = [] := by rw [← ht0]; rfl
    have hch0 : ∀ k, t0.child k
        = new ((Region.mk x y w h).quadrant k).x ((Region.mk x y w h).quadrant k).y
            ((Region.mk x y w h).quadrant k).width
            ((Region.mk x y w h).quadrant k).height := by
      intro k; rw [← ht0]; exact child_subdivided x y w h (some q) a b c d k
    have hroute0 : ∀ u v, t0.route u v = quadrantOf (x + w / 2) (y + h / 2) u v := by
      intro u v; unfold route; rw [hr0]
    -- line 71: the stored particle goes to a new child
    have hqin := Region.inside_quadrant G _ _ _ hq
    obtain ⟨cq, hcq, hwcq, hrcq, hlcq, hecq, hpcq, hkcq⟩ := insert_new G _ q hqin
    simp only [] at hcq hrcq
    rw [← hroute0] at hcq hrcq hqin
    rw [← hch0] at hcq
    have hrcq' : region cq = region (t0.child (t0.route q.x q.y)) := by
      rw [hrcq, hch0]; rfl
    have hlcq' : (leaves cq).Perm (q :: leaves (t0.child (t0.route q.x q.y))) := by
      rw [hlcq, hch0, leaves_new]
    obtain ⟨h1, hw1, hi1, hr1, hl1⟩ := insert_step G t0 hi0 hw0 q 1 cq hcq hwcq hrcq' hlcq'
    obtain ⟨-, -, hch1⟩ := setChild_props t0 hi0 (t0.route q.x q.y) cq
    generalize ht1 : t0.setChild (t0.route q.x q.y) cq = t1 at h1 hw1 hi1 hr1 hl1 hch1
    have hroute1 : ∀ u v, t1.route u v = t0.route u v := by
      intro u v; unfold route; rw [hr1]
    -- line 72: the new particle
    have hpin := Region.inside_quadrant G _ _ _ hp
    rw [← hroute0] at hpin
    have hsub : ∃ (f : ℕ) (cp : QuadTreeNode),
        insert f (t1.child (t1.route p.x p.y)) p = some cp ∧ WellFormed G cp
        ∧ region cp = region (t1.child (t1.route p.x p.y))
        ∧ (leaves cp).Perm (p :: leaves (t1.child (t1.route p.x p.y))) := by
      rw [hroute1, hch1]
      by_cases hsame : t0.route p.x p.y = t0.route q.x q.y
      · rw [if_pos hsame]
        -- both in the same quadrant: the child is an occupied external node
        cases cq with
        | NULL => simp [WellFormed] at hwcq
        | node x' y' w' h' e' q' NW' NE' SW' SE' a' b' c' d' =>
          simp only [isExternal] at hecq
          simp only [particle] at hpcq
          subst hecq
          subst hpcq
          simp only [region] at hrcq
          have hx' : x' = ((Region.mk x y w h).quadrant (t0.route q.x q.y)).x := by
            rw [← hrcq]
          have hy' : y' = ((Region.mk x y w h).quadrant (t0.route q.x q.y)).y := by
            rw [← hrcq]
          have hw' : w' = w / 2 := by
            have := congrArg Region.width hrcq
            simpa [(Region.quadrant_width _ _).1] using this
          have hh' : h' = h / 2 := by
            have := congrArg Region.height hrcq
            simpa [(Region.quadrant_width _ _).2] using this
          have hq' : (Region.mk x' y' w' h').Inside G q.x q.y := by rw [hrcq]; exact hqin
          have hp' : (Region.mk x' y' w' h').Inside G p.x p.y := by
            rw [hrcq, ← hsame]; exact hpin
          have hsep' : w' < 2 ^ n * |p.x - q.x| ∨ h' < 2 ^ n * |p.y - q.y| := by
            rw [hw', hh']
            rcases hsep with hs | hs
            · left
              rw [pow_succ] at hs
              linarith
            · right
              rw [pow_succ] at hs
              linarith
          obtain ⟨f, cp, hcp, hwcp, -, hrcp, hlcp⟩ :=
            ih x' y' w' h' q p NW' NE' SW' SE' a' b' c' d' hq' hp' hsep'
          refine ⟨f, cp, hcp, hwcp, hrcp, ?_⟩
          simpa [leaves] using hlcp
      · rw [if_neg hsame, hch0]
        obtain ⟨cp, hcp, hwcp, hrcp, hlcp, -⟩ := insert_new G _ p hpin
        exact ⟨1, cp, hcp, hwcp, by rw [hrcp]; rfl, by rw [hlcp, leaves_new]⟩
    obtain ⟨f, cp, hcp, hwcp, hrcp, hlcp⟩ := hsub
    obtain ⟨h2, hw2, hi2, hr2, hl2⟩ := insert_step G t1 hi1 hw1 p f cp hcp hwcp hrcp hlcp
    refine ⟨max 2 (f + 1) + 1, _, ?_, hw2, hi2, by rw [hr2, hr1, hr0], ?_⟩
    · rw [insert_occupied, ht0, insert_mono h1 (le_max_left _ _)]
      exact insert_mono h2 (le_max_right _ _)
    · refine hl2.trans (List.Perm.cons p ?_)
      rw [hl0] at hl1
      exact hl1

end QuadTreeNode

/-! ### The quadtree: insertion into a well-formed tree -/

/-- Two distinct points leave any width and height behind after enough
halvings. -/
theorem exists_halvings (w h : ℚ) (p q : particle_t) (hne : ¬ (p.x = q.x ∧ p.y = q.y)) :
    ∃ n : ℕ, w < 2 ^ n * |p.x - q.x| ∨ h < 2 ^ n * |p.y - q.y| := by
  by_cases hx : p.x = q.x
  · have hy : p.y ≠ q.y := fun hy => hne ⟨hx, hy⟩
    have hpos : 0 < |p.y - q.y| := abs_pos.mpr (sub_ne_zero.mpr hy)
    obtain ⟨n, hn⟩ := pow_unbounded_of_one_lt (h / |p.y - q.y|) (one_lt_two : (1 : ℚ) < 2)
    exact ⟨n, Or.inr ((div_lt_iff₀ hpos).mp hn)⟩
  · have hpos : 0 < |p.x - q.x| := abs_pos.mpr (sub_ne_zero.mpr hx)
    obtain ⟨n, hn⟩ := pow_unbounded_of_one_lt (w / |p.x - q.x|) (one_lt_two : (1 : ℚ) < 2)
    exact ⟨n, Or.inl ((div_lt_iff₀ hpos).mp hn)⟩

namespace QuadTreeNode

/-- Inserting, into a well-formed tree, a particle of its region whose position
differs from those already in the tree: the call returns, the tree stays well
formed on the same region, and its external nodes hold the old particles and the
new one. -/
theorem insert_wellFormed (G : ℚ → ℚ → Prop) :
    ∀ (t : QuadTreeNode), WellFormed G t → ∀ (p : particle_t),
      (region t).Inside G p.x p.y → (∀ r ∈ leaves t, ¬ (p.x = r.x ∧ p.y = r.y)) →
      ∃ (fuel : ℕ) (t' : QuadTreeNode), insert fuel t p = some t' ∧ WellFormed G t'
        ∧ region t' = region t ∧ (leaves t').Perm (p :: leaves t) := by
  intro t
  induction t with
  | NULL =>
    intro hw
    simp [WellFormed] at hw
  | node x y w h e q NW NE SW SE a b c d ihNW ihNE ihSW ihSE =>
    intro hw p hin hne
    cases e with
    | true =>
      cases q with
      | none =>
        refine ⟨1, _, insert_empty 0 x y w h NW NE SW SE a b c d p, ?_, rfl, ?_⟩
        · simp only [WellFormed] at hw ⊢
          refine ⟨hw.1, ?_⟩
          intro r hr
          cases hr
          exact hin
        · simp [leaves]
      | some q =>
        have hq : (Region.mk x y w h).Inside G q.x q.y := by
          simp only [WellFormed] at hw
          exact hw.2 q rfl
        have hpq : ¬ (p.x = q.x ∧ p.y = q.y) := hne q (by simp [leaves])
        obtain ⟨n, hn⟩ := exists_halvings w h p q hpq
        obtain ⟨fuel, t', h1, h2, -, h4, h5⟩ :=
          insert_split G n x y w h q p NW NE SW SE a b c d hq hin hn
        exact ⟨fuel, t', h1, h2, h4, by simpa [leaves] using h5⟩
    | false =>
      have hi : isInternal (node x y w h false q NW NE SW SE a b c d) = true := rfl
      have hwt := (wellFormed_of_internal G _ hi).mp hw
      have ih : ∀ k : Quadrant,
          WellFormed G ((node x y w h false q NW NE SW SE a b c d).child k) →
          ∀ (p : particle_t),
            (region ((node x y w h false q NW NE SW SE a b c d).child k)).Inside G p.x p.y →
            (∀ r ∈ leaves ((node x y w h false q NW NE SW SE a b c d).child k),
              ¬ (p.x = r.x ∧ p.y = r.y)) →
            ∃ (fuel : ℕ) (t' : QuadTreeNode),
              insert fuel ((node x y w h false q NW NE SW SE a b c d).child k) p = some t'
              ∧ WellFormed G t'
              ∧ region t' = region ((node x y w h false q NW NE SW SE a b c d).child k)
              ∧ (leaves t').Perm
                  (p :: leaves ((node x y w h false q NW NE SW SE a b c d).child k)) := by
        intro k
        cases k
        · exact ihNW
        · exact ihNE
        · exact ihSW
        · exact ihSE
      generalize ht : node x y w h false q NW NE SW SE a b c d = t at hw hin hne hi hwt ih ⊢
      have hin' : (region (t.child (t.route p.x p.y))).Inside G p.x p.y := by
        rw [(hwt _).2.1]
        exact Region.inside_quadrant G _ _ _ hin
      obtain ⟨f, c', hc, hwc, hrc, hlc⟩ := ih (t.route p.x p.y) (hwt _).1 p hin'
        (fun r hr => hne r (mem_leaves_of_child t hi _ r hr))
      obtain ⟨h1, h2, -, h4, h5⟩ := insert_step G t hi hw p f c' hc hwc hrc hlc
      exact ⟨f + 1, _, h1, h2, h4, h5⟩

theorem route_congr (t t' : QuadTreeNode) (h : region t = region t') (a b : ℚ) :
    t.route a b = t'.route a b := by
  unfold route
  rw [h]

/-- No amount of fuel lets `insert` return when the quadrant rule never tells
the new particle from the stored one: `I` is a property of the node's region
that forces the same quadrant for both and passes on to that quadrant. -/
theorem insert_never_separated (I : Region → Prop) (q p : particle_t)
    (hI : ∀ R, I R →
      quadrantOf (R.x + R.width / 2) (R.y + R.height / 2) p.x p.y
          = quadrantOf (R.x + R.width / 2) (R.y + R.height / 2) q.x q.y
        ∧ I (R.quadrant (quadrantOf (R.x + R.width / 2) (R.y + R.height / 2) q.x q.y))) :
    ∀ (fuel : ℕ) (x y w h : ℚ) (NW NE SW SE : QuadTreeNode) (a b c d : ℚ),
      I ⟨x, y, w, h⟩ →
      insert fuel (node x y w h true (some q) NW NE SW SE a b c d) p = none := by
  intro fuel
  induction fuel using Nat.strong_induction_on with
  | _ fuel ih =>
    intro x y w h NW NE SW SE a b c d hR
    rcases fuel with _ | _ | _ | f
    · rfl
    · rw [insert_occupied, insert_zero]
      rfl
    · rw [insert_occupied, insert_internal, insert_zero]
      rfl
    · rw [insert_occupied]
      generalize ht0 : node x y w h false (some q) (new x y (w / 2) (h / 2))
        (new (x + w / 2) y (w / 2) (h / 2)) (new x (y + h / 2) (w / 2) (h / 2))
        (new (x + w / 2) (y + h / 2) (w / 2) (h / 2)) a b c d = t0
      have hi0 : isInternal t0 = true := by rw [← ht0]; rfl
      have hr0 : region t0 = ⟨x, y, w, h⟩ := by rw [← ht0]; rfl
      have hch0 : ∀ k, t0.child k
          = new ((Region.mk x y w h).quadrant k).x ((Region.mk x y w h).quadrant k).y
              ((Region.mk x y w h).quadrant k).width
              ((Region.mk x y w h).quadrant k).height := by
        intro k; rw [← ht0]; exact child_subdivided x y w h (some q) a b c d k
      obtain ⟨hsame, hnext⟩ := hI _ hR
      simp only [] at hsame hnext
      have hk : t0.route q.x q.y = quadrantOf (x + w / 2) (y + h / 2) q.x q.y := by
        unfold route; rw [hr0]
      have hkp : t0.route p.x p.y = quadrantOf (x + w / 2) (y + h / 2) q.x q.y := by
        unfold route; rw [hr0]; exact hsame
      generalize quadrantOf (x + w / 2) (y + h / 2) q.x q.y = k at hk hkp hnext
      obtain ⟨R', hR'⟩ : ∃ R', (Region.mk x y w h).quadrant k = R' := ⟨_, rfl⟩
      rw [hR'] at hnext
      have hq1 : insert (f + 2) t0 q = some (t0.setChild k
          (node R'.x R'.y R'.width R'.height true (some q) NULL NULL NULL NULL
            (R'.width / 2) (R'.height / 2) (R'.x + R'.width / 2) (R'.y + R'.height / 2))) := by
        rw [insert_of_internal (f + 1) t0 hi0 q, hk, hch0, hR']
        unfold new initial_p
        rw [insert_empty]
        rfl
      generalize hocc : node R'.x R'.y R'.width R'.height true (some q) NULL NULL NULL NULL
            (R'.width / 2) (R'.height / 2) (R'.x + R'.width / 2) (R'.y + R'.height / 2)
          = occ at hq1
      obtain ⟨hi1, hr1, hch1⟩ := setChild_props t0 hi0 k occ
      have hroute1 : (t0.setChild k occ).route p.x p.y = k := by
        rw [route_congr _ _ hr1, hkp]
      rw [hq1, Option.some_bind, insert_of_internal (f + 1) _ hi1 p, hroute1, hch1, if_pos rfl,
        ← hocc, ih (f + 1) (by omega) _ _ _ _ _ _ _ _ _ _ _ _ hnext]
      rfl

/-- No amount of fuel lets `insert` return when the new particle has the
position of the particle that the external node holds. -/
theorem insert_same_position (fuel : ℕ) (x y w h : ℚ) (q p : particle_t)
    (NW NE SW SE : QuadTreeNode) (a b c d : ℚ) (hx : p.x = q.x) (hy : p.y = q.y) :
    insert fuel (node x y w h true (some q) NW NE SW SE a b c d) p = none :=
  insert_never_separated (fun _ => True) q p (fun R _ => ⟨by rw [hx, hy], trivial⟩)
    fuel x y w h NW NE SW SE a b c d trivial

/-- The stored particle has to lie in the node's region for a second, distinct
particle of the region to be inserted: the unit square holding a particle at
`(-5, 0)` never takes the particle at `(0, 0)`, both go to NW at every level. -/
theorem insert_stored_outside_region (fuel : ℕ) :
    insert fuel (node 0 0 1 1 true (some ⟨-5, 0, 0, 0, 0, 0⟩) NULL NULL NULL NULL
      (1 / 2) (1 / 2) (1 / 2) (1 / 2)) ⟨0, 0, 0, 0, 0, 0⟩ = none := by
  apply insert_never_separated
    (fun R => R.x = 0 ∧ R.y = 0 ∧ 0 < R.width ∧ 0 < R.height)
  · rintro R ⟨hx, hy, hw, hh⟩
    have hmx : (0 : ℚ) < R.x + R.width / 2 := by rw [hx]; linarith
    have hmy : (0 : ℚ) < R.y + R.height / 2 := by rw [hy]; linarith
    have h1 : quadrantOf (R.x + R.width / 2) (R.y + R.height / 2) 0 0 = Quadrant.NW :=
      (quadrantOf_NW _ _ _ _).mpr ⟨hmx, hmy⟩
    have h2 : quadrantOf (R.x + R.width / 2) (R.y + R.height / 2) (-5) 0 = Quadrant.NW :=
      (quadrantOf_NW _ _ _ _).mpr ⟨by linarith, hmy⟩
    simp only []
    rw [h1, h2]
    refine ⟨rfl, hx, hy, ?_, ?_⟩
    · simp only [Region.quadrant]; linarith
    · simp only [Region.quadrant]; linarith
  · exact ⟨rfl, rfl, by norm_num, by norm_num⟩

end QuadTreeNode

/-! ### The quadtree: what a well-formed tree looks like -/

namespace QuadTreeNode

theorem subdivided_of_wellFormed (G : ℚ → ℚ → Prop) :
    ∀ t : QuadTreeNode, WellFormed G t → Subdivided t := by
  intro t
  induction t with
  | NULL => intro hw; simp [WellFormed] at hw
  | node x y w h e q NW NE SW SE a b c d ihNW ihNE ihSW ihSE =>
    intro hw
    cases e with
    | true =>
      simp only [WellFormed] at hw
      simp only [Subdivided]
      exact hw.1
    | false =>
      simp only [WellFormed] at hw
      simp only [Subdivided]
      exact ⟨⟨ihNW hw.1.1, hw.1.2.1⟩, ⟨ihNE hw.2.1.1, hw.2.1.2.1⟩,
        ⟨ihSW hw.2.2.1.1, hw.2.2.1.2.1⟩, ⟨ihSE hw.2.2.2.1, hw.2.2.2.2.1⟩⟩

theorem descend_internal (t : QuadTreeNode) (hi : isInternal t = true) (u v : ℚ) :
    descend t u v = descend (t.child (t.route u v)) u v := by
  cases t with
  | NULL => simp [isInternal] at hi
  | node x y w h e q NW NE SW SE a b c d =>
    cases e with
    | true => simp [isInternal] at hi
    | false =>
      simp only [descend, route, region]
      cases quadrantOf (x + w / 2) (y + h / 2) u v <;> rfl

/-- In a well-formed tree the descent by the quadrant rule from the root, for
the position of a particle held by an external node, ends at an external node
that holds this particle and whose region contains it. -/
theorem descend_finds (G : ℚ → ℚ → Prop) :
    ∀ t : QuadTreeNode, WellFormed G t → ∀ r ∈ leaves t,
      isExternal (descend t r.x r.y) = true ∧ particle (descend t r.x r.y) = some r
        ∧ (region (descend t r.x r.y)).Inside G r.x r.y := by
  intro t
  induction t with
  | NULL => intro hw; simp [WellFormed] at hw
  | node x y w h e q NW NE SW SE a b c d ihNW ihNE ihSW ihSE =>
    intro hw r hr
    cases e with
    | true =>
      simp only [leaves, Option.mem_toList, Option.mem_def] at hr
      simp only [WellFormed] at hw
      exact ⟨rfl, hr, hw.2 r hr⟩
    | false =>
      have hi : isInternal (node x y w h false q NW NE SW SE a b c d) = true := rfl
      have hwt := (wellFormed_of_internal G _ hi).mp hw
      have ih : ∀ k : Quadrant,
          WellFormed G ((node x y w h false q NW NE SW SE a b c d).child k) →
          ∀ r ∈ leaves ((node x y w h false q NW NE SW SE a b c d).child k),
            isExternal
                (descend ((node x y w h false q NW NE SW SE a b c d).child k) r.x r.y) = true
            ∧ particle
                (descend ((node x y w h false q NW NE SW SE a b c d).child k) r.x r.y)
                = some r
            ∧ (region
                (descend ((node x y w h false q NW NE SW SE a b c d).child k) r.x r.y)).Inside
                  G r.x r.y := by
        intro k
        cases k
        · exact ihNW
        · exact ihNE
        · exact ihSW
        · exact ihSE
      obtain ⟨k, hk⟩ := mem_leaves_internal _ hi r hr
      rw [descend_internal _ hi, (hwt k).2.2 r hk]
      exact ih k (hwt k).1 r hk

theorem insert_all_mono {fuel fuel' : ℕ} (hle : fuel ≤ fuel') :
    ∀ (ps : List particle_t) (t r : QuadTreeNode),
      insert_all fuel t ps = some r → insert_all fuel' t ps = some r := by
  intro ps
  induction ps with
  | nil => intro t r h; exact h
  | cons p ps ih =>
    intro t r h
    simp only [insert_all] at h ⊢
    cases h1 : insert fuel t p with
    | none => rw [h1] at h; exact absurd h (by simp)
    | some t1 =>
      rw [h1] at h
      rw [insert_mono h1 hle]
      exact ih t1 r h

/-- Inserting a list of particles of the region, at pairwise distinct positions
that also differ from those in the tree, into a well-formed tree. -/
theorem insert_all_wellFormed (G : ℚ → ℚ → Prop) :
    ∀ (ps : List particle_t) (t : QuadTreeNode), WellFormed G t →
      (∀ p ∈ ps, (region t).Inside G p.x p.y) →
      ps.Pairwise (fun p q => ¬ (p.x = q.x ∧ p.y = q.y)) →
      (∀ p ∈ ps, ∀ r ∈ leaves t, ¬ (p.x = r.x ∧ p.y = r.y)) →
      ∃ (fuel : ℕ) (t' : QuadTreeNode), insert_all fuel t ps = some t' ∧ WellFormed G t'
        ∧ region t' = region t ∧ (leaves t').Perm (ps ++ leaves t) := by
  intro ps
  induction ps with
  | nil =>
    intro t hw _ _ _
    exact ⟨0, t, rfl, hw, rfl, List.Perm.refl _⟩
  | cons p ps ih =>
    intro t hw hin hd hne
    obtain ⟨f1, t1, h1, hw1, hr1, hl1⟩ :=
      insert_wellFormed G t hw p (hin p (List.mem_cons_self _ _))
        (hne p (List.mem_cons_self _ _))
    have hd' := List.pairwise_cons.mp hd
    obtain ⟨f2, t2, h2, hw2, hr2, hl2⟩ := ih t1 hw1
      (fun r hr => by rw [hr1]; exact hin r (List.mem_cons_of_mem _ hr)) hd'.2
      (fun r hr s hs => by
        rcases List.mem_cons.mp (hl1.mem_iff.mp hs) with h | h
        · rw [h]
          intro hcon
          exact hd'.1 r hr ⟨hcon.1.symm, hcon.2.symm⟩
        · exact hne r (List.mem_cons_of_mem _ hr) s h)
    refine ⟨max f1 f2, t2, ?_, hw2, by rw [hr2, hr1], ?_⟩
    · simp only [insert_all]
      rw [insert_mono h1 (le_max_left _ _)]
      exact insert_all_mono (le_max_right _ _) ps t1 t2 h2
    · refine hl2.trans ?_
      refine (List.Perm.append_left ps hl1).trans ?_
      simp

end QuadTreeNode

/-! ### C4, C9, C10: the quadtree -/

namespace QuadTreeNode

/-- C4, amended: in exact arithmetic (coordinates taken as exact reals),
`insert` on a new (empty, external) node with region `(x, y, w, h)`
stores the particle, whichever it is, and leaves the node external with no
children; with the first particle `p1` in the region, inserting a second
particle of the region, at a different position, returns and makes the
node internal with four children, none `NULL`, whose regions are
`NW = (x, y, w/2, h/2)`, `NE = (x+w/2, y, w/2, h/2)`, `SW = (x, y+h/2, w/2, h/2)`
and `SE = (x+w/2, y+h/2, w/2, h/2)`; the half-open cells of the four quadrants
of any region tile its half-open cell without gap or overlap; and the tree is
`Subdivided`: every internal node further down has four such children and every
external node has none. -/
theorem insert_subdivides (x y w h : ℚ) (p1 p2 : particle_t)
    (h1 : (Region.mk x y w h).contains p1.x p1.y)
    (h2 : (Region.mk x y w h).contains p2.x p2.y)
    (hne : ¬ (p2.x = p1.x ∧ p2.y = p1.y)) :
    (∀ (fuel : ℕ) (p : particle_t), insert (fuel + 1) (new x y w h) p
        = some (node x y w h true (some p) NULL NULL NULL NULL
            (w / 2) (h / 2) (x + w / 2) (y + h / 2)))
    ∧ (∃ (fuel : ℕ) (t : QuadTreeNode),
        (∀ f, fuel ≤ f →
          insert f (node x y w h true (some p1) NULL NULL NULL NULL
            (w / 2) (h / 2) (x + w / 2) (y + h / 2)) p2 = some t)
        ∧ isExternal t = false ∧ isInternal t = true ∧ region t = ⟨x, y, w, h⟩
        ∧ (∀ k, t.child k ≠ NULL)
        ∧ region (t.child Quadrant.NW) = ⟨x, y, w / 2, h / 2⟩
        ∧ region (t.child Quadrant.NE) = ⟨x + w / 2, y, w / 2, h / 2⟩
        ∧ region (t.child Quadrant.SW) = ⟨x, y + h / 2, w / 2, h / 2⟩
        ∧ region (t.child Quadrant.SE) = ⟨x + w / 2, y + h / 2, w / 2, h / 2⟩
        ∧ Subdivided t)
    ∧ (∀ (R : Region) (a b : ℚ),
        (R.covers a b ↔ ∃ k, (R.quadrant k).covers a b)
        ∧ ∀ k j, (R.quadrant k).covers a b → (R.quadrant j).covers a b → k = j) := by
  refine ⟨fun fuel p => insert_empty fuel _ _ _ _ _ _ _ _ _ _ _ _ p, ?_, ?_⟩
  · obtain ⟨n, hn⟩ := exists_halvings w h p2 p1 hne
    obtain ⟨fuel, t, ht, hw, hi, hr, -⟩ :=
      insert_split (fun _ _ => False) n x y w h p1 p2 NULL NULL NULL NULL
        (w / 2) (h / 2) (x + w / 2) (y + h / 2) ⟨h1, False.elim⟩ ⟨h2, False.elim⟩ hn
    have hwt := (wellFormed_of_internal _ t hi).mp hw
    have hreg : ∀ k, region (t.child k) = (Region.mk x y w h).quadrant k := by
      intro k
      rw [(hwt k).2.1, hr]
    refine ⟨fuel, t, fun f hf => insert_mono ht hf, ?_, hi, hr, ?_, hreg _, hreg _, hreg _,
      hreg _, subdivided_of_wellFormed _ t hw⟩
    · cases t with
      | NULL => simp [isInternal] at hi
      | node x' y' w' h' e q NW NE SW SE a b c d =>
        cases e with
        | true => simp [isInternal] at hi
        | false => rfl
    · intro k hk
      have := (hwt k).1
      rw [hk] at this
      simp [WellFormed] at this
  · intro R a b
    constructor
    · constructor
      · intro hc
        exact ⟨_, (R.covers_quadrant_iff a b _).mpr ⟨hc, rfl⟩⟩
      · rintro ⟨k, hk⟩
        exact ((R.covers_quadrant_iff a b k).mp hk).1
    · intro k j hk hj
      rw [← ((R.covers_quadrant_iff a b k).mp hk).2, ← ((R.covers_quadrant_iff a b j).mp hj).2]

/-- Witness for amended C4: the unit square with particles at `(1/4, 1/4)` and
`(3/4, 1/4)`; the second insertion yields the four quadrants, the first
particle in NW and the second in NE. -/
theorem insert_subdivides_witness :
    (Region.mk 0 0 1 1).contains (1 / 4) (1 / 4) ∧ (Region.mk 0 0 1 1).contains (3 / 4) (1 / 4)
    ∧ insert 3 (node 0 0 1 1 true (some ⟨1 / 4, 1 / 4, 0, 0, 0, 0⟩) NULL NULL NULL NULL
          (1 / 2) (1 / 2) (0 + 1 / 2) (0 + 1 / 2)) ⟨3 / 4, 1 / 4, 0, 0, 0, 0⟩
        = some (node 0 0 1 1 false (some ⟨1 / 4, 1 / 4, 0, 0, 0, 0⟩)
            (node 0 0 (1 / 2) (1 / 2) true (some ⟨1 / 4, 1 / 4, 0, 0, 0, 0⟩) NULL NULL NULL NULL
              (1 / 2 / 2) (1 / 2 / 2) (0 + 1 / 2 / 2) (0 + 1 / 2 / 2))
            (node (0 + 1 / 2) 0 (1 / 2) (1 / 2) true (some ⟨3 / 4, 1 / 4, 0, 0, 0, 0⟩)
              NULL NULL NULL NULL (1 / 2 / 2) (1 / 2 / 2) (0 + 1 / 2 + 1 / 2 / 2) (0 + 1 / 2 / 2))
            (new 0 (0 + 1 / 2) (1 / 2) (1 / 2)) (new (0 + 1 / 2) (0 + 1 / 2) (1 / 2) (1 / 2))
            (1 / 2) (1 / 2) (0 + 1 / 2) (0 + 1 / 2))
    ∧ ∃ (fuel : ℕ) (t : QuadTreeNode),
        (∀ f, fuel ≤ f →
          insert f (node 0 0 1 1 true (some ⟨1 / 4, 1 / 4, 0, 0, 0, 0⟩) NULL NULL NULL NULL
            (1 / 2) (1 / 2) (0 + 1 / 2) (0 + 1 / 2)) ⟨3 / 4, 1 / 4, 0, 0, 0, 0⟩ = some t)
        ∧ isInternal t = true ∧ Subdivided t := by
  have hc1 : (Region.mk 0 0 1 1).contains (1 / 4) (1 / 4) := by
    norm_num [Region.contains]
  have hc2 : (Region.mk 0 0 1 1).contains (3 / 4) (1 / 4) := by
    norm_num [Region.contains]
  refine ⟨hc1, hc2, ?_, ?_⟩
  · rw [insert_occupied, insert_internal]
    norm_num [quadrantOf, child, setChild, new, initial_p, insert]
  · obtain ⟨-, ⟨fuel, t, ht, -, hi, -, -, -, -, -, -, hs⟩, -⟩ :=
      insert_subdivides 0 0 1 1 ⟨1 / 4, 1 / 4, 0, 0, 0, 0⟩ ⟨3 / 4, 1 / 4, 0, 0, 0, 0⟩ hc1 hc2
        (by norm_num)
    exact ⟨fuel, t, ht, hi, hs⟩

end QuadTreeNode

namespace QuadTreeNode

/-- C9, amended: in exact arithmetic (coordinates taken as exact reals), for
every finite sequence of particles at pairwise distinct positions
inside the root's region, inserting them all into a new root returns (with any
fuel above some bound) a tree whose external nodes hold exactly the inserted
particles, each particle in exactly one external node (an external node has one
particle field, so it holds at most one); the descent from the root by the
quadrant rule, for the position of an inserted particle, ends at an external
node that holds this particle and whose region contains the position (its
half-open cell too when the position is in the half-open cell of the root). -/
theorem insert_all_holds_each_once (R : Region) (ps : List particle_t)
    (hin : ∀ p ∈ ps, R.contains p.x p.y)
    (hd : ps.Pairwise (fun p q => ¬ (p.x = q.x ∧ p.y = q.y))) :
    ∃ (fuel : ℕ) (t : QuadTreeNode),
      (∀ f, fuel ≤ f → insert_all f (new R.x R.y R.width R.height) ps = some t)
      ∧ region t = R ∧ Subdivided t
      ∧ (leaves t).Perm ps ∧ (leaves t).length = ps.length
      ∧ (∀ p ∈ ps, (leaves t).count p = 1)
      ∧ (∀ p ∈ ps,
          isExternal (descend t p.x p.y) = true ∧ particle (descend t p.x p.y) = some p
          ∧ (region (descend t p.x p.y)).contains p.x p.y
          ∧ (R.covers p.x p.y → (region (descend t p.x p.y)).covers p.x p.y)) := by
  obtain ⟨fuel, t, ht, hw, hr, hl⟩ :=
    insert_all_wellFormed R.covers ps (new R.x R.y R.width R.height)
      (wellFormed_new _ _ _ _ _) (fun p hp => ⟨hin p hp, fun g => g⟩) hd
      (fun p _ r hr => by simp [leaves_new] at hr)
  rw [leaves_new, List.append_nil] at hl
  have hnd : ps.Nodup := by
    refine List.Pairwise.imp ?_ hd
    intro a b hab heq
    exact hab (by rw [heq]; exact ⟨rfl, rfl⟩)
  refine ⟨fuel, t, fun f hf => insert_all_mono hf ps _ t ht, by rw [hr]; rfl,
    subdivided_of_wellFormed _ t hw, hl, hl.length_eq, ?_, ?_⟩
  · intro p hp
    rw [hl.count_eq]
    exact List.count_eq_one_of_mem hnd hp
  · intro p hp
    obtain ⟨h1, h2, h3⟩ := descend_finds R.covers t hw p (hl.mem_iff.mpr hp)
    exact ⟨h1, h2, h3.1, h3.2⟩

/-- Witness for amended C9: three particles in the unit square, two of them in the same
quadrant of the root. -/
theorem insert_all_holds_each_once_witness :
    ∃ (fuel : ℕ) (t : QuadTreeNode),
      (∀ f, fuel ≤ f →
        insert_all f (new 0 0 1 1)
          [⟨1 / 8, 1 / 8, 0, 0, 0, 0⟩, ⟨3 / 8, 1 / 8, 0, 0, 0, 0⟩, ⟨1, 1, 0, 0, 0, 0⟩] = some t)
      ∧ (leaves t).Perm
          [⟨1 / 8, 1 / 8, 0, 0, 0, 0⟩, ⟨3 / 8, 1 / 8, 0, 0, 0, 0⟩, ⟨1, 1, 0, 0, 0, 0⟩]
      ∧ particle (descend t 1 1) = some ⟨1, 1, 0, 0, 0, 0⟩ := by
  obtain ⟨fuel, t, h1, -, -, h2, -, -, h3⟩ :=
    insert_all_holds_each_once ⟨0, 0, 1, 1⟩
      [⟨1 / 8, 1 / 8, 0, 0, 0, 0⟩, ⟨3 / 8, 1 / 8, 0, 0, 0, 0⟩, ⟨1, 1, 0, 0, 0, 0⟩]
      (by
        intro p hp
        simp only [List.mem_cons, List.mem_singleton, List.not_mem_nil, or_false] at hp
        rcases hp with rfl | rfl | rfl <;> norm_num [Region.contains])
      (by
        simp only [List.pairwise_cons, List.mem_cons, List.mem_singleton, List.not_mem_nil,
          or_false, false_implies, implies_true, List.Pairwise.nil, and_true]
        refine ⟨?_, ?_⟩
        · rintro a (rfl | rfl) <;> norm_num
        · rintro a rfl
          norm_num)
  exact ⟨fuel, t, h1, h2, (h3 ⟨1, 1, 0, 0, 0, 0⟩ (by simp)).2.1⟩

/-- C10: for an external node that holds a particle `q` of its region (as the
occupied external nodes of a tree built from particles of the root's region do;
`insert_stored_outside_region` is what happens otherwise) and a second particle
`p` of its region, `insert` returns if and only if the position
of `p` differs from that of `q`: at identical coordinates the two particles go
to the same child quadrant at every midpoint and no fuel (recursion depth)
suffices, at distinct positions some fuel does, and any larger fuel gives the
same tree. -/
theorem insert_terminates_iff_distinct (x y w h : ℚ) (q p : particle_t)
    (NW NE SW SE : QuadTreeNode) (a b c d : ℚ)
    (hq : (Region.mk x y w h).contains q.x q.y) (hp : (Region.mk x y w h).contains p.x p.y) :
    ((∃ (fuel : ℕ) (t : QuadTreeNode),
        insert fuel (node x y w h true (some q) NW NE SW SE a b c d) p = some t)
      ↔ ¬ (p.x = q.x ∧ p.y = q.y))
    ∧ ((p.x = q.x ∧ p.y = q.y) →
        (∀ xmid ymid, quadrantOf xmid ymid p.x p.y = quadrantOf xmid ymid q.x q.y)
        ∧ ∀ fuel, insert fuel (node x y w h true (some q) NW NE SW SE a b c d) p = none)
    ∧ (¬ (p.x = q.x ∧ p.y = q.y) →
        ∃ (fuel : ℕ) (t : QuadTreeNode), ∀ f, fuel ≤ f →
          insert f (node x y w h true (some q) NW NE SW SE a b c d) p = some t) := by
  have hsame : (p.x = q.x ∧ p.y = q.y) →
      ∀ fuel, insert fuel (node x y w h true (some q) NW NE SW SE a b c d) p = none :=
    fun he fuel => insert_same_position fuel x y w h q p NW NE SW SE a b c d he.1 he.2
  have hdiff : ¬ (p.x = q.x ∧ p.y = q.y) →
      ∃ (fuel : ℕ) (t : QuadTreeNode), ∀ f, fuel ≤ f →
        insert f (node x y w h true (some q) NW NE SW SE a b c d) p = some t := by
    intro hne
    obtain ⟨n, hn⟩ := exists_halvings w h p q hne
    obtain ⟨fuel, t, ht, -⟩ :=
      insert_split (fun _ _ => False) n x y w h q p NW NE SW SE a b c d
        ⟨hq, False.elim⟩ ⟨hp, False.elim⟩ hn
    exact ⟨fuel, t, fun f hf => insert_mono ht hf⟩
  refine ⟨⟨?_, ?_⟩, ?_, hdiff⟩
  · rintro ⟨fuel, t, ht⟩ he
    rw [hsame he fuel] at ht
    exact absurd ht (by simp)
  · intro hne
    obtain ⟨fuel, t, ht⟩ := hdiff hne
    exact ⟨fuel, t, ht fuel le_rfl⟩
  · intro he
    refine ⟨?_, hsame he⟩
    intro xmid ymid
    rw [he.1, he.2]

/-- Witness for C10: the unit square holding a particle at `(1/4, 1/4)`; a
second particle at `(3/8, 1/4)` is inserted after two subdivisions, a second
particle at `(1/4, 1/4)` never is. -/
theorem insert_terminates_iff_distinct_witness :
    ((∃ (fuel : ℕ) (t : QuadTreeNode),
        insert fuel (node 0 0 1 1 true (some ⟨1 / 4, 1 / 4, 0, 0, 0, 0⟩) NULL NULL NULL NULL
          (1 / 2) (1 / 2) (1 / 2) (1 / 2)) ⟨3 / 8, 1 / 4, 0, 0, 0, 0⟩ = some t)
      ↔ ¬ ((3 / 8 : ℚ) = 1 / 4 ∧ (1 / 4 : ℚ) = 1 / 4))
    ∧ ∀ fuel,
        insert fuel (node 0 0 1 1 true (some ⟨1 / 4, 1 / 4, 0, 0, 0, 0⟩) NULL NULL NULL NULL
          (1 / 2) (1 / 2) (1 / 2) (1 / 2)) ⟨1 / 4, 1 / 4, 0, 0, 0, 0⟩ = none := by
  have hc1 : (Region.mk 0 0 1 1).contains (1 / 4) (1 / 4) := by
    norm_num [Region.contains]
  have hc2 : (Region.mk 0 0 1 1).contains (3 / 8) (1 / 4) := by
    norm_num [Region.contains]
  exact ⟨(insert_terminates_iff_distinct 0 0 1 1 ⟨1 / 4, 1 / 4, 0, 0, 0, 0⟩
      ⟨3 / 8, 1 / 4, 0, 0, 0, 0⟩ NULL NULL NULL NULL (1 / 2) (1 / 2) (1 / 2) (1 / 2) hc1 hc2).1,
    ((insert_terminates_iff_distinct 0 0 1 1 ⟨1 / 4, 1 / 4, 0, 0, 0, 0⟩
      ⟨1 / 4, 1 / 4, 0, 0, 0, 0⟩ NULL NULL NULL NULL (1 / 2) (1 / 2) (1 / 2) (1 / 2) hc1
      hc1).2.1 ⟨rfl, rfl⟩).2⟩

end QuadTreeNode

/-! ### C8 on doubles -/

theorem dt_fl_eq : dt_fl = 1152921504606847 / 2 ^ 61 := by
  have h := fl_eq (5 / 10000) (-63) 4611686018427388 (by norm_num) (by norm_num)
    (by norm_num) (by norm_num) (by norm_num)
  unfold dt_fl
  rw [h]
  norm_num

/-- Reflecting the position `147573952589676416` (`2^68 * dt`) in the unit
domain gives its negative: `2*size` is lost in the rounding. -/
theorem reflect_fl_absorbs : reflect_fl 1 147573952589676416 = -147573952589676416 := by
  have h := fl_eq (147573952589676416 - 2) 5 4611686018427388 (by norm_num) (by norm_num)
    (by norm_num) (by norm_num) (by norm_num)
  have h2 : fl (2 * 1) = 2 := by
    have := fl_representable 2 0 (by norm_num) (by norm_num)
    simpa using this
  have e : (2 : ℚ) - 147573952589676416 = -(147573952589676416 - 2) := by ring
  unfold reflect_fl
  rw [if_neg (by norm_num), h2, e, fl_neg, h]
  norm_num

/-- The wall loop on doubles cycles between `147573952589676416` and its
negative. -/
theorem bounce_fl_cycles (fuel : ℕ) :
    ∀ v : ℚ, bounce_fl 1 fuel 147573952589676416 v = none
      ∧ bounce_fl 1 fuel (-147573952589676416) v = none := by
  induction fuel with
  | zero =>
    intro v
    constructor
    · simp only [bounce_fl]
      rw [if_pos (Or.inr (by norm_num))]
    · simp only [bounce_fl]
      rw [if_pos (Or.inl (by norm_num))]
  | succ f ih =>
    intro v
    constructor
    · simp only [bounce_fl]
      rw [if_pos (Or.inr (by norm_num)), reflect_fl_absorbs]
      exact (ih (-v)).2
    · simp only [bounce_fl]
      rw [if_pos (Or.inl (by norm_num))]
      have hr : reflect_fl 1 (-147573952589676416) = 147573952589676416 := by
        unfold reflect_fl
        rw [if_pos (by norm_num)]
        norm_num
      rw [hr]
      exact (ih (-v)).1

/-- C8 fails on doubles: in the unit domain, the particle at the origin with
velocity `vx = 2^68` has the integrated position `2^68 * dt ≈ 1.5e17`; there
`2*size - x` rounds to `-x`, the first wall loop alternates between `x` and
`-x`, and `move` returns with no amount of fuel. -/
theorem move_fl_never_returns :
    (0 : ℚ) < 1 ∧ fl (0 + fl (fl (2 ^ 68 + fl (0 * dt_fl)) * dt_fl)) = 147573952589676416
    ∧ ∀ fuel, move_fl 1 fuel ⟨0, 0, 2 ^ 68, 0, 0, 0⟩ = none := by
  have hvx : fl (2 ^ 68 + fl (0 * dt_fl)) = 2 ^ 68 := by
    rw [zero_mul, fl_zero, add_zero]
    have := fl_representable 1 68 (by norm_num) (by norm_num)
    norm_num at this ⊢
    exact this
  have hx : fl (0 + fl (2 ^ 68 * dt_fl)) = 147573952589676416 := by
    have h := fl_representable 1152921504606847 7 (by norm_num) (by norm_num)
    have e : (2 : ℚ) ^ 68 * dt_fl = ((1152921504606847 : ℤ) : ℚ) * 2 ^ (7 : ℤ) := by
      rw [dt_fl_eq]
      norm_num
    rw [e, h, zero_add, h]
    norm_num
  refine ⟨by norm_num, by rw [hvx, hx], ?_⟩
  intro fuel
  simp only [move_fl, hvx, hx, (bounce_fl_cycles fuel _).1]

/-! ### The quadtree on doubles -/

namespace QuadTreeNode

theorem insert_fl_zero (t : QuadTreeNode) (p : particle_t) : insert_fl 0 t p = none := by
  cases t <;> rfl

theorem insert_fl_empty (fuel : ℕ) (x y w h : ℚ) (NW NE SW SE : QuadTreeNode) (a b c d : ℚ)
    (p : particle_t) :
    insert_fl (fuel + 1) (node x y w h true none NW NE SW SE a b c d) p
      = some (node x y w h true (some p) NW NE SW SE a b c d) := by
  simp only [insert_fl, if_true]

theorem insert_fl_occupied (fuel : ℕ) (x y w h : ℚ) (q : particle_t)
    (NW NE SW SE : QuadTreeNode) (a b c d : ℚ) (p : particle_t) :
    insert_fl (fuel + 1) (node x y w h true (some q) NW NE SW SE a b c d) p
      = (insert_fl fuel
          (node x y w h false (some q) (new_fl x y (fl (w / 2)) (fl (h / 2)))
            (new_fl (fl (x + fl (w / 2))) y (fl (w / 2)) (fl (h / 2)))
            (new_fl x (fl (y + fl (h / 2))) (fl (w / 2)) (fl (h / 2)))
            (new_fl (fl (x + fl (w / 2))) (fl (y + fl (h / 2))) (fl (w / 2)) (fl (h / 2)))
            a b c d) q).bind
          (fun this1 => insert_fl fuel this1 p) := by
  simp only [insert_fl, if_true]
  cases insert_fl fuel
      (node x y w h false (some q) (new_fl x y (fl (w / 2)) (fl (h / 2)))
        (new_fl (fl (x + fl (w / 2))) y (fl (w / 2)) (fl (h / 2)))
        (new_fl x (fl (y + fl (h / 2))) (fl (w / 2)) (fl (h / 2)))
        (new_fl (fl (x + fl (w / 2))) (fl (y + fl (h / 2))) (fl (w / 2)) (fl (h / 2)))
        a b c d) q <;> rfl

theorem insert_fl_internal (fuel : ℕ) (x y w h : ℚ) (q : Option particle_t)
    (NW NE SW SE : QuadTreeNode) (a b c d : ℚ) (p : particle_t) :
    insert_fl (fuel + 1) (node x y w h false q NW NE SW SE a b c d) p
      = (insert_fl fuel
          ((node x y w h false q NW NE SW SE a b c d).child
            (quadrantOf (fl (x + fl (w / 2))) (fl (y + fl (h / 2))) p.x p.y)) p).map
          ((node x y w h false q NW NE SW SE a b c d).setChild
            (quadrantOf (fl (x + fl (w / 2))) (fl (y + fl (h / 2))) p.x p.y)) := by
  by_cases hx : p.x < fl (x + fl (w / 2)) <;> by_cases hy : p.y < fl (y + fl (h / 2)) <;>
    simp [insert_fl, quadrantOf, hx, hy, child, setChild, not_le.mpr, not_lt.mp] <;> rfl

theorem insert_fl_of_internal (fuel : ℕ) (t : QuadTreeNode) (hi : isInternal t = true)
    (p : particle_t) :
    insert_fl (fuel + 1) t p
      = (insert_fl fuel (t.child (t.route_fl p.x p.y)) p).map
          (t.setChild (t.route_fl p.x p.y)) := by
  cases t with
  | NULL => simp [isInternal] at hi
  | node x y w h e q NW NE SW SE a b c d =>
    cases e with
    | true => simp [isInternal] at hi
    | false => exact insert_fl_internal fuel x y w h q NW NE SW SE a b c d p

theorem route_fl_congr (t t' : QuadTreeNode) (h : region t = region t') (a b : ℚ) :
    t.route_fl a b = t'.route_fl a b := by
  unfold route_fl
  rw [h]

/-- The children that lines 62-65 create on doubles. -/
theorem child_subdivided_fl (x y w h : ℚ) (q : Option particle_t) (a b c d : ℚ)
    (k : Quadrant) :
    (node x y w h false q (new_fl x y (fl (w / 2)) (fl (h / 2)))
        (new_fl (fl (x + fl (w / 2))) y (fl (w / 2)) (fl (h / 2)))
        (new_fl x (fl (y + fl (h / 2))) (fl (w / 2)) (fl (h / 2)))
        (new_fl (fl (x + fl (w / 2))) (fl (y + fl (h / 2))) (fl (w / 2)) (fl (h / 2)))
        a b c d).child k
      = new_fl ((Region.mk x y w h).quadrant_fl k).x ((Region.mk x y w h).quadrant_fl k).y
          ((Region.mk x y w h).quadrant_fl k).width
          ((Region.mk x y w h).quadrant_fl k).height := by
  cases k <;> rfl

/-- On doubles too, no amount of fuel lets `insert` return when the quadrant
rule never tells the new particle from the stored one: `I` is a property of the
node's region that forces the same quadrant for both and passes on to that
quadrant. -/
theorem insert_fl_never_separated (I : Region → Prop) (q p : particle_t)
    (hI : ∀ R, I R →
      quadrantOf (fl (R.x + fl (R.width / 2))) (fl (R.y + fl (R.height / 2))) p.x p.y
          = quadrantOf (fl (R.x + fl (R.width / 2))) (fl (R.y + fl (R.height / 2))) q.x q.y
        ∧ I (R.quadrant_fl
            (quadrantOf (fl (R.x + fl (R.width / 2))) (fl (R.y + fl (R.height / 2)))
              q.x q.y))) :
    ∀ (fuel : ℕ) (x y w h : ℚ) (NW NE SW SE : QuadTreeNode) (a b c d : ℚ),
      I ⟨x, y, w, h⟩ →
      insert_fl fuel (node x y w h true (some q) NW NE SW SE a b c d) p = none := by
  intro fuel
  induction fuel using Nat.strong_induction_on with
  | _ fuel ih =>
    intro x y w h NW NE SW SE a b c d hR
    rcases fuel with _ | _ | _ | f
    · rfl
    · rw [insert_fl_occupied, insert_fl_zero]
      rfl
    · rw [insert_fl_occupied, insert_fl_internal, insert_fl_zero]
      rfl
    · rw [insert_fl_occupied]
      generalize ht0 : node x y w h false (some q) (new_fl x y (fl (w / 2)) (fl (h / 2)))
        (new_fl (fl (x + fl (w / 2))) y (fl (w / 2)) (fl (h / 2)))
        (new_fl x (fl (y + fl (h / 2))) (fl (w / 2)) (fl (h / 2)))
        (new_fl (fl (x + fl (w / 2))) (fl (y + fl (h / 2))) (fl (w / 2)) (fl (h / 2)))
        a b c d = t0
      have hi0 : isInternal t0 = true := by rw [← ht0]; rfl
      have hr0 : region t0 = ⟨x, y, w, h⟩ := by rw [← ht0]; rfl
      have hch0 : ∀ k, t0.child k
          = new_fl ((Region.mk x y w h).quadrant_fl k).x ((Region.mk x y w h).quadrant_fl k).y
              ((Region.mk x y w h).quadrant_fl k).width
              ((Region.mk x y w h).quadrant_fl k).height := by
        intro k; rw [← ht0]; exact child_subdivided_fl x y w h (some q) a b c d k
      obtain ⟨hsame, hnext⟩ := hI _ hR
      simp only [] at hsame hnext
      have hk : t0.route_fl q.x q.y
          = quadrantOf (fl (x + fl (w / 2))) (fl (y + fl (h / 2))) q.x q.y := by
        unfold route_fl; rw [hr0]
      have hkp : t0.route_fl p.x p.y
          = quadrantOf (fl (x + fl (w / 2))) (fl (y + fl (h / 2))) q.x q.y := by
        unfold route_fl; rw [hr0]; exact hsame
      generalize quadrantOf (fl (x + fl (w / 2))) (fl (y + fl (h / 2))) q.x q.y = k
        at hk hkp hnext
      obtain ⟨R', hR'⟩ : ∃ R', (Region.mk x y w h).quadrant_fl k = R' := ⟨_, rfl⟩
      rw [hR'] at hnext
      have hq1 : insert_fl (f + 2) t0 q = some (t0.setChild k
          (node R'.x R'.y R'.width R'.height true (some q) NULL NULL NULL NULL
            (fl (R'.width / 2)) (fl (R'.height / 2)) (fl (R'.x + fl (R'.width / 2)))
            (fl (R'.y + fl (R'.height / 2))))) := by
        rw [insert_fl_of_internal (f + 1) t0 hi0 q, hk, hch0, hR']
        unfold new_fl initial_p
        rw [insert_fl_empty]
        rfl
      generalize hocc : node R'.x R'.y R'.width R'.height true (some q) NULL NULL NULL NULL
            (fl (R'.width / 2)) (fl (R'.height / 2)) (fl (R'.x + fl (R'.width / 2)))
            (fl (R'.y + fl (R'.height / 2)))
          = occ at hq1
      obtain ⟨hi1, hr1, hch1⟩ := setChild_props t0 hi0 k occ
      have hroute1 : (t0.setChild k occ).route_fl p.x p.y = k := by
        rw [route_fl_congr _ _ hr1, hkp]
      rw [hq1, Option.some_bind, insert_fl_of_internal (f + 1) _ hi1 p, hroute1, hch1,
        if_pos rfl, ← hocc, ih (f + 1) (by omega) _ _ _ _ _ _ _ _ _ _ _ _ hnext]
      rfl

end QuadTreeNode

/-! ### C4, C9 on doubles: two adjacent doubles that are never separated -/

/-- A dyadic rational with at most 53 significant bits is a double. -/
theorem fl_div_pow (M : ℤ) (k : ℕ) (hM : |M| < 2 ^ 53) (hk : k ≤ 1074) :
    fl ((M : ℚ) / 2 ^ k) = (M : ℚ) / 2 ^ k := by
  have h := fl_representable M (-(k : ℤ)) hM (by omega)
  have e : (M : ℚ) * 2 ^ (-(k : ℤ)) = (M : ℚ) / 2 ^ k := by
    rw [zpow_neg, zpow_natCast, div_eq_mul_inv]
  rw [e] at h
  exact h

/-- Halving `3/2^k` is exact. -/
theorem fl_half_three (k : ℕ) (hk : k ≤ 60) : fl (3 / 2 ^ k / 2) = 3 / 2 ^ (k + 1) := by
  have h := fl_div_pow 3 (k + 1) (by norm_num) (by omega)
  have e : (3 : ℚ) / 2 ^ k / 2 = ((3 : ℤ) : ℚ) / 2 ^ (k + 1) := by
    push_cast
    rw [pow_succ]
    field_simp
  rw [e, h]
  norm_num

/-- The midpoints `3 - 3/2^(k+1)` of the first 51 levels are exact. -/
theorem fl_mid_exact (k : ℕ) (hk : k < 51) :
    fl (3 - 3 / 2 ^ k + 3 / 2 ^ (k + 1)) = 3 - 3 / 2 ^ (k + 1) := by
  have hpow : (2 : ℤ) ^ (k + 1) ≤ 2 ^ 51 := pow_le_pow_right₀ (by norm_num) (by omega)
  have hpos : (0 : ℤ) < 2 ^ (k + 1) := by positivity
  have h := fl_div_pow (3 * 2 ^ (k + 1) - 3) (k + 1)
    (by rw [abs_lt]; constructor <;> omega) (by omega)
  have e : (3 : ℚ) - 3 / 2 ^ k + 3 / 2 ^ (k + 1)
      = ((3 * 2 ^ (k + 1) - 3 : ℤ) : ℚ) / 2 ^ (k + 1) := by
    push_cast
    rw [pow_succ]
    field_simp
    ring
  have e' : ((3 * 2 ^ (k + 1) - 3 : ℤ) : ℚ) / 2 ^ (k + 1) = 3 - 3 / 2 ^ (k + 1) := by
    push_cast
    field_simp
  rw [e, h, e']

/-- Level 51: the midpoint `3 - 3/2^52` is a tie and rounds to the even
neighbour `3 - 1/2^50`. -/
theorem fl_mid_tie : fl (3 - 3 / 2 ^ 51 + 3 / 2 ^ 52) = 3 - 1 / 2 ^ 50 := by
  have h := fl_eq_tie (3 - 3 / 2 ^ 51 + 3 / 2 ^ 52) (-51) (3 * 2 ^ 51 - 2) (by norm_num)
    (by norm_num) (by norm_num) (by norm_num)
  rw [h]
  norm_num

/-- Level 52: the midpoint rounds to `3 - 1/2^51`, the double just below `3`. -/
theorem fl_mid_52 : fl (3 - 1 / 2 ^ 50 + 3 / 2 ^ 53) = 3 - 1 / 2 ^ 51 := by
  have h := fl_eq (3 - 1 / 2 ^ 50 + 3 / 2 ^ 53) (-51) (3 * 2 ^ 51 - 1) (by norm_num)
    (by norm_num) (by norm_num) (by norm_num) (by norm_num)
  rw [h]
  norm_num

/-- From then on the half width is absorbed: the midpoint is the origin of the
region again. -/
theorem fl_mid_absorbs (t : ℚ) (h0 : 0 ≤ t) (h1 : t ≤ 3 / 2 ^ 54) :
    fl (3 - 1 / 2 ^ 51 + t) = 3 - 1 / 2 ^ 51 := by
  have hdiv : (3 - 1 / 2 ^ 51 + t) / 2 ^ (-51 : ℤ) = (3 * 2 ^ 51 - 1 : ℚ) + t * 2 ^ 51 := by
    rw [zpow_neg, div_inv_eq_mul]
    norm_num
    ring
  have ht : t * 2 ^ 51 ≤ 3 / 8 := by
    have : t * 2 ^ 51 ≤ 3 / 2 ^ 54 * 2 ^ 51 := mul_le_mul_of_nonneg_right h1 (by positivity)
    norm_num at this ⊢
    linarith
  have ht0 : 0 ≤ t * 2 ^ 51 := mul_nonneg h0 (by positivity)
  have h3 : (3 : ℚ) / 2 ^ 54 < 1 / 2 ^ 51 := by norm_num
  have h := fl_eq (3 - 1 / 2 ^ 51 + t) (-51) (3 * 2 ^ 51 - 1) (by norm_num)
    (by norm_num; linarith) (by norm_num; linarith)
    (by rw [hdiv]; push_cast; linarith) (by rw [hdiv]; push_cast; linarith)
  rw [h]
  norm_num

/-- East of the midpoint the child starts at the midpoint and has the rounded
half width. -/
theorem Region.quadrant_fl_east (R : Region) (a b : ℚ)
    (h : fl (R.x + fl (R.width / 2)) ≤ a) :
    (R.quadrant_fl
        (quadrantOf (fl (R.x + fl (R.width / 2))) (fl (R.y + fl (R.height / 2))) a b)).x
      = fl (R.x + fl (R.width / 2))
    ∧ (R.quadrant_fl
        (quadrantOf (fl (R.x + fl (R.width / 2))) (fl (R.y + fl (R.height / 2))) a b)).width
      = fl (R.width / 2) := by
  by_cases hy : b < fl (R.y + fl (R.height / 2))
  · rw [(quadrantOf_NE _ _ _ _).mpr ⟨h, hy⟩]
    exact ⟨rfl, rfl⟩
  · rw [(quadrantOf_SE _ _ _ _).mpr ⟨h, not_lt.mp hy⟩]
    exact ⟨rfl, rfl⟩

/-- Two points east of the midpoint, at the same height, go to the same
quadrant. -/
theorem quadrantOf_east (xmid ymid a a' b : ℚ) (h : xmid ≤ a) (h' : xmid ≤ a') :
    quadrantOf xmid ymid a' b = quadrantOf xmid ymid a b := by
  by_cases hy : b < ymid
  · rw [(quadrantOf_NE _ _ _ _).mpr ⟨h, hy⟩, (quadrantOf_NE _ _ _ _).mpr ⟨h', hy⟩]
  · rw [(quadrantOf_SE _ _ _ _).mpr ⟨h, not_lt.mp hy⟩,
      (quadrantOf_SE _ _ _ _).mpr ⟨h', not_lt.mp hy⟩]

/-- In each of the `corner_regions` the rounded midpoint is at most
`3 - 1/2^51`, and the eastern child is one of the `corner_regions` again. -/
theorem corner_regions_step (R : Region) (hR : corner_regions R) :
    fl (R.x + fl (R.width / 2)) ≤ 3 - 1 / 2 ^ 51
    ∧ ∀ R' : Region, R'.x = fl (R.x + fl (R.width / 2)) → R'.width = fl (R.width / 2) →
        corner_regions R' := by
  rcases hR with ⟨k, hk, hx, hw⟩ | ⟨hx, hw⟩ | ⟨hx, hw⟩ | ⟨hx, hw0, hw1⟩
  · rw [hx, hw, fl_half_three k (by omega)]
    rcases Nat.lt_or_ge k 51 with hlt | hge
    · rw [fl_mid_exact k hlt]
      constructor
      · have hpow : (2 : ℚ) ^ (k + 1) ≤ 2 ^ 51 := pow_le_pow_right₀ (by norm_num) (by omega)
        have hpos : (0 : ℚ) < 2 ^ (k + 1) := by positivity
        have : (1 : ℚ) / 2 ^ 51 ≤ 3 / 2 ^ (k + 1) := by
          rw [div_le_div_iff₀ (by positivity) hpos]
          linarith
        linarith
      · intro R' h1 h2
        exact Or.inl ⟨k + 1, by omega, h1, h2⟩
    · have hk51 : k = 51 := by omega
      subst hk51
      rw [fl_mid_tie]
      constructor
      · norm_num
      · intro R' h1 h2
        exact Or.inr (Or.inl ⟨h1, by rw [h2]⟩)
  · have hw' : fl (R.width / 2) = 3 / 2 ^ 53 := by
      rw [hw]
      exact fl_half_three 52 (by norm_num)
    rw [hx, hw', fl_mid_52]
    constructor
    · exact le_refl _
    · intro R' h1 h2
      exact Or.inr (Or.inr (Or.inl ⟨h1, h2⟩))
  · have hw' : fl (R.width / 2) = 3 / 2 ^ 54 := by
      rw [hw]
      exact fl_half_three 53 (by norm_num)
    rw [hx, hw', fl_mid_absorbs _ (by norm_num) (le_refl _)]
    constructor
    · exact le_refl _
    · intro R' h1 h2
      exact Or.inr (Or.inr (Or.inr ⟨h1, by rw [h2]; norm_num, by rw [h2]⟩))
  · obtain ⟨hb0, hb1⟩ := fl_bounds (R.width / 2) (by linarith)
    have hb2 : fl (R.width / 2) ≤ 3 / 2 ^ 54 := by linarith
    rw [hx, fl_mid_absorbs _ hb0 hb2]
    constructor
    · exact le_refl _
    · intro R' h1 h2
      exact Or.inr (Or.inr (Or.inr ⟨h1, by rw [h2]; exact hb0, by rw [h2]; exact hb2⟩))

namespace QuadTreeNode

/-- On doubles, below the root `(0, 0, 3, 3)` a particle at `x = 3 - 1/2^51`
and one at `x = 3`, at the same height, are never separated: no amount of fuel
lets `insert` return. -/
theorem insert_fl_corner (q p : particle_t) (hq : q.x = 3 - 1 / 2 ^ 51)
    (hp : p.x = 3) (hy : p.y = q.y) (fuel : ℕ) (y h : ℚ) (NW NE SW SE : QuadTreeNode)
    (a b c d : ℚ) :
    insert_fl fuel (node 0 y 3 h true (some q) NW NE SW SE a b c d) p = none := by
  apply insert_fl_never_separated corner_regions q p
  · intro R hR
    obtain ⟨hmid, hnext⟩ := corner_regions_step R hR
    have hmq : fl (R.x + fl (R.width / 2)) ≤ q.x := by rw [hq]; exact hmid
    have hmp : fl (R.x + fl (R.width / 2)) ≤ p.x := by
      rw [hp]
      have : (3 : ℚ) - 1 / 2 ^ 51 ≤ 3 := by norm_num
      linarith
    constructor
    · rw [hy]
      exact quadrantOf_east _ _ _ _ _ hmq hmp
    · obtain ⟨h1, h2⟩ := R.quadrant_fl_east q.x q.y hmq
      exact hnext _ h1 h2
  · exact Or.inl ⟨0, by norm_num, by norm_num, by norm_num⟩

/-- C4 fails on doubles: the node with region `(0, 0, 3, 3)` stores the particle
at `(3 - 1/2^51, 1)`; the second particle, at the different position `(3, 1)` of
the region, is never inserted: from level 53 on the half width is absorbed in
`x + width/2`, the midpoint stays at `3 - 1/2^51`, both particles go east at
every level, and `insert` returns with no amount of fuel. -/
theorem insert_fl_never_returns :
    (Region.mk 0 0 3 3).contains (3 - 1 / 2 ^ 51) 1 ∧ (Region.mk 0 0 3 3).contains 3 1
    ∧ ¬ ((3 : ℚ) = 3 - 1 / 2 ^ 51 ∧ (1 : ℚ) = 1)
    ∧ fl (3 - 1 / 2 ^ 51) = 3 - 1 / 2 ^ 51 ∧ fl 3 = 3
    ∧ insert_fl 1 (new_fl 0 0 3 3) ⟨3 - 1 / 2 ^ 51, 1, 0, 0, 0, 0⟩
        = some (node 0 0 3 3 true (some ⟨3 - 1 / 2 ^ 51, 1, 0, 0, 0, 0⟩) NULL NULL NULL NULL
            (fl (3 / 2)) (fl (3 / 2)) (fl (0 + fl (3 / 2))) (fl (0 + fl (3 / 2))))
    ∧ ∀ fuel,
        insert_fl fuel
          (node 0 0 3 3 true (some ⟨3 - 1 / 2 ^ 51, 1, 0, 0, 0, 0⟩) NULL NULL NULL NULL
            (fl (3 / 2)) (fl (3 / 2)) (fl (0 + fl (3 / 2))) (fl (0 + fl (3 / 2))))
          ⟨3, 1, 0, 0, 0, 0⟩ = none := by
  refine ⟨by norm_num [Region.contains], by norm_num [Region.contains], by norm_num, ?_, ?_,
    ?_, ?_⟩
  · have h := fl_div_pow (3 * 2 ^ 51 - 1) 51 (by norm_num) (by norm_num)
    norm_num at h ⊢
    exact h
  · have h := fl_div_pow 3 0 (by norm_num) (by norm_num)
    norm_num at h ⊢
    exact h
  · exact insert_fl_empty 0 _ _ _ _ _ _ _ _ _ _ _ _ _
  · intro fuel
    exact insert_fl_corner ⟨3 - 1 / 2 ^ 51, 1, 0, 0, 0, 0⟩ ⟨3, 1, 0, 0, 0, 0⟩ rfl rfl rfl fuel 0 3
      _ _ _ _ _ _ _ _

/-- C9 fails on doubles: inserting the two particles `(3 - 1/2^51, 1)` and
`(3, 1)`, at distinct positions of the root's region, into a new root
`(0, 0, 3, 3)` returns with no amount of fuel. -/
theorem insert_all_fl_never_returns :
    (∀ p ∈ [(⟨3 - 1 / 2 ^ 51, 1, 0, 0, 0, 0⟩ : particle_t), ⟨3, 1, 0, 0, 0, 0⟩],
        (Region.mk 0 0 3 3).contains p.x p.y)
    ∧ [(⟨3 - 1 / 2 ^ 51, 1, 0, 0, 0, 0⟩ : particle_t), ⟨3, 1, 0, 0, 0, 0⟩].Pairwise
        (fun p q => ¬ (p.x = q.x ∧ p.y = q.y))
    ∧ ∀ fuel,
        insert_all_fl fuel (new_fl 0 0 3 3)
          [⟨3 - 1 / 2 ^ 51, 1, 0, 0, 0, 0⟩, ⟨3, 1, 0, 0, 0, 0⟩] = none := by
  refine ⟨?_, ?_, ?_⟩
  · intro p hp
    simp only [List.mem_cons, List.mem_singleton, List.not_mem_nil, or_false] at hp
    rcases hp with rfl | rfl <;> norm_num [Region.contains]
  · simp only [List.pairwise_cons, List.mem_cons, List.mem_singleton, List.not_mem_nil,
      or_false, false_implies, implies_true, List.Pairwise.nil, and_true]
    rintro a rfl
    norm_num
  · intro fuel
    cases fuel with
    | zero => simp [insert_all_fl, insert_fl_zero]
    | succ f =>
      simp only [insert_all_fl]
      unfold new_fl initial_p
      rw [insert_fl_empty]
      simp only []
      rw [insert_fl_corner ⟨3 - 1 / 2 ^ 51, 1, 0, 0, 0, 0⟩ ⟨3, 1, 0, 0, 0, 0⟩ rfl rfl rfl]

end QuadTreeNode

/-! ### C7 on doubles -/

theorem cutoff_fl_eq : cutoff_fl = 5764607523034235 / 2 ^ 59 := by
  have h := fl_eq (1 / 100) (-59) 5764607523034235 (by norm_num) (by norm_num)
    (by norm_num) (by norm_num) (by norm_num)
  unfold cutoff_fl
  rw [h]
  norm_num

theorem mass_fl_eq : mass_fl = 5764607523034235 / 2 ^ 59 := cutoff_fl_eq

theorem cutoff_sq_fl_eq : fl (cutoff_fl * cutoff_fl) = 7378697629483821 / 2 ^ 66 := by
  have h := fl_eq (5764607523034235 / 2 ^ 59 * (5764607523034235 / 2 ^ 59)) (-66)
    7378697629483821 (by norm_num) (by norm_num) (by norm_num) (by norm_num) (by norm_num)
  rw [cutoff_fl_eq, h]
  norm_num

theorem min_r_fl_eq : min_r_fl = 7378697629483821 / 2 ^ 66 := by
  have h := fl_eq (5764607523034235 / 2 ^ 59 / 100) (-66) 7378697629483821 (by norm_num)
    (by norm_num) (by norm_num) (by norm_num) (by norm_num)
  unfold min_r_fl
  rw [cutoff_fl_eq, h]
  norm_num

theorem min_r_sq_fl_eq : fl (min_r_fl * min_r_fl) = 3022314549036573 / 2 ^ 78 := by
  have h := fl_eq (7378697629483821 / 2 ^ 66 * (7378697629483821 / 2 ^ 66)) (-79)
    6044629098073146 (by norm_num) (by norm_num) (by norm_num) (by norm_num) (by norm_num)
  rw [min_r_fl_eq, h]
  norm_num

theorem fl_one : fl 1 = 1 := by
  have h := fl_representable 1 0 (by norm_num) (by norm_num)
  simpa using h

/-- C7 fails on doubles: `a` at the origin and `b` at
`(2882303761517117/2^58, 3/2^34)`, both with zero acceleration, are at a
separation `r` with `0 < r < 0.01`, below the cutoff (the literal `0.01` and the
double it denotes); the computed `r2` is below the computed `cutoff*cutoff`, its
rounded root is the double `cutoff`, so `cutoff / r` is `1`, `coef` is `0`, and
`apply_force(a, b)` leaves `a` with zero acceleration. -/
theorem apply_force_fl_zero_inside_cutoff :
    0 < separation2 ⟨0, 0, 0, 0, 0, 0⟩ ⟨2882303761517117 / 2 ^ 58, 3 / 2 ^ 34, 0, 0, 0, 0⟩
    ∧ separation2 ⟨0, 0, 0, 0, 0, 0⟩ ⟨2882303761517117 / 2 ^ 58, 3 / 2 ^ 34, 0, 0, 0, 0⟩
        < cutoff * cutoff
    ∧ separation2 ⟨0, 0, 0, 0, 0, 0⟩ ⟨2882303761517117 / 2 ^ 58, 3 / 2 ^ 34, 0, 0, 0, 0⟩
        < cutoff_fl * cutoff_fl
    ∧ fl (2882303761517117 / 2 ^ 58) = 2882303761517117 / 2 ^ 58
    ∧ fl (3 / 2 ^ 34) = 3 / 2 ^ 34
    ∧ (apply_force_fl ⟨0, 0, 0, 0, 0, 0⟩ ⟨2882303761517117 / 2 ^ 58, 3 / 2 ^ 34, 0, 0, 0, 0⟩
        ⟨1, 0, 0⟩).1.ax = 0
    ∧ (apply_force_fl ⟨0, 0, 0, 0, 0, 0⟩ ⟨2882303761517117 / 2 ^ 58, 3 / 2 ^ 34, 0, 0, 0, 0⟩
        ⟨1, 0, 0⟩).1.ay = 0 := by
  have hx : fl (2882303761517117 / 2 ^ 58) = 2882303761517117 / 2 ^ 58 := by
    have h := fl_div_pow 2882303761517117 58 (by norm_num) (by norm_num)
    push_cast at h
    exact h
  have hy : fl (3 / 2 ^ 34) = 3 / 2 ^ 34 := by
    have h := fl_div_pow 3 34 (by norm_num) (by norm_num)
    push_cast at h
    exact h
  have hxx : fl (2882303761517117 / 2 ^ 58 * (2882303761517117 / 2 ^ 58))
      = 3689348814741909 / 2 ^ 65 := by
    have h := fl_eq (2882303761517117 / 2 ^ 58 * (2882303761517117 / 2 ^ 58)) (-66)
      7378697629483818 (by norm_num) (by norm_num) (by norm_num) (by norm_num) (by norm_num)
    rw [h]
    norm_num
  have hyy : fl (3 / 2 ^ 34 * (3 / 2 ^ 34)) = 9 / 2 ^ 68 := by
    have h := fl_div_pow 9 68 (by norm_num) (by norm_num)
    have e : (3 : ℚ) / 2 ^ 34 * (3 / 2 ^ 34) = ((9 : ℤ) : ℚ) / 2 ^ 68 := by norm_num
    rw [e, h]
    norm_num
  have hr2 : fl (3689348814741909 / 2 ^ 65 + 9 / 2 ^ 68) = 1844674407370955 / 2 ^ 64 := by
    have h := fl_eq (3689348814741909 / 2 ^ 65 + 9 / 2 ^ 68) (-66) 7378697629483820
      (by norm_num) (by norm_num) (by norm_num) (by norm_num) (by norm_num)
    rw [h]
    norm_num
  have hmax : max (1844674407370955 / 2 ^ 64 : ℚ) (3022314549036573 / 2 ^ 78)
      = 1844674407370955 / 2 ^ 64 := max_eq_left (by norm_num)
  have hsqrt : fl_sqrt (1844674407370955 / 2 ^ 64) = 5764607523034235 / 2 ^ 59 := by
    have h := fl_sqrt_eq_up (1844674407370955 / 2 ^ 64) (-14) 5764607523034234
      (by norm_num) (by norm_num) (by norm_num) (by norm_num) (by norm_num)
    rw [h]
    norm_num
  have hq : fl ((5764607523034235 : ℚ) / 2 ^ 59 / (5764607523034235 / 2 ^ 59)) = 1 := by
    rw [div_self (by norm_num), fl_one]
  have hnot : ¬ ((1844674407370955 : ℚ) / 2 ^ 64 > 7378697629483821 / 2 ^ 66) := by norm_num
  have hres : (apply_force_fl ⟨0, 0, 0, 0, 0, 0⟩
      ⟨2882303761517117 / 2 ^ 58, 3 / 2 ^ 34, 0, 0, 0, 0⟩ ⟨1, 0, 0⟩).1
      = ⟨0, 0, 0, 0, 0, 0⟩ := by
    simp only [apply_force_fl, sub_zero, hx, hy, hxx, hyy, hr2, cutoff_sq_fl_eq,
      min_r_sq_fl_eq, if_neg hnot, hmax, hsqrt, cutoff_fl_eq, hq, sub_self, fl_zero, zero_div,
      zero_mul, add_zero]
    split_ifs <;> rfl
  refine ⟨by norm_num [separation2], by norm_num [separation2, cutoff], ?_, hx, hy, ?_, ?_⟩
  · rw [cutoff_fl_eq]
    norm_num [separation2]
  · rw [hres]
  · rw [hres]

end NBody
